import Mathlib

/-!
Verification development for the contraction-plan search engine of
`opt_einsum.py`: the cost estimator `_compute_size_by_dict`, the reducer
`_find_contraction`, the two path searches `_path_optimal` and
`_path_opportunistic`, and the path-dispatch / materialization part of
`contract` (lines 370-408 of the source).

Index labels are modelled as natural numbers, label sets as `Finset ℕ`,
the size dictionary as a total function `ℕ → ℕ`, and ordered subscript
strings as `List ℕ`.
-/

namespace OptEinsum

/-- Model of `_compute_size_by_dict` applied to an ordered iterable of labels
(a subscript string): the product of the sizes, taken in order, with
multiplicity. -/
def compute_size_by_dict (inds : List ℕ) (d : ℕ → ℕ) : ℕ :=
  (inds.map d).prod

/-- Model of `_compute_size_by_dict` applied to a set of labels: the product
of the sizes of the distinct labels. -/
def sizeSet (inds : Finset ℕ) (d : ℕ → ℕ) : ℕ :=
  inds.prod d

/-- The quadruple returned by `_find_contraction`:
`(new_result, remaining, idx_removed, idx_contract)`. -/
structure ContractionResult where
  new_result : Finset ℕ
  remaining : List (Finset ℕ)
  idx_removed : Finset ℕ
  idx_contract : Finset ℕ
deriving DecidableEq

/-- The `for ind, value in enumerate(input_sets)` loop of `_find_contraction`,
started at index `ind`: returns the union of the selected descriptors, the
union of the non-selected descriptors, and the list of non-selected
descriptors in original order. -/
def fcScan (positions : List ℕ) : ℕ → List (Finset ℕ) → Finset ℕ × Finset ℕ × List (Finset ℕ)
  | _, [] => (∅, ∅, [])
  | ind, value :: rest =>
    let r := fcScan positions (ind + 1) rest
    if ind ∈ positions then (r.1 ∪ value, r.2.1, r.2.2)
    else (r.1, r.2.1 ∪ value, value :: r.2.2)

/-- Model of `_find_contraction positions input_sets output_set`. -/
def find_contraction (positions : List ℕ) (input_sets : List (Finset ℕ))
    (output_set : Finset ℕ) : ContractionResult :=
  let s := fcScan positions 0 input_sets
  let idx_contract := s.1
  let idx_remain := output_set ∪ s.2.1
  let new_result := idx_remain ∩ idx_contract
  { new_result := new_result
    remaining := s.2.2 ++ [new_result]
    idx_removed := idx_contract \ new_result
    idx_contract := idx_contract }

/-- Union of a list of label sets. -/
def unionF (l : List (Finset ℕ)) : Finset ℕ :=
  l.foldr (· ∪ ·) ∅

/-- The non-selected descriptors of a sequence, in original relative order. -/
def nonSel (positions : List ℕ) (input_sets : List (Finset ℕ)) : List (Finset ℕ) :=
  ((input_sets.enum.filter (fun p => decide (p.1 ∉ positions))).map Prod.snd)

/-- The selected descriptors of a sequence, in original relative order. -/
def selSets (positions : List ℕ) (input_sets : List (Finset ℕ)) : List (Finset ℕ) :=
  ((input_sets.enum.filter (fun p => decide (p.1 ∈ positions))).map Prod.snd)

/-- Python list lexicographic strict order on tuples of naturals
(a proper prefix is smaller). -/
def listLtNat : List ℕ → List ℕ → Bool
  | _, [] => false
  | [], _ :: _ => true
  | a :: as, b :: bs => decide (a < b) || (a == b && listLtNat as bs)

/-- Python lexicographic strict order on lists of position groups. -/
def posLt : List (List ℕ) → List (List ℕ) → Bool
  | _, [] => false
  | [], _ :: _ => true
  | a :: as, b :: bs => listLtNat a b || (a == b && posLt as bs)

/-- Selection of the first minimal element of `c :: cs` under the strict
comparison `lt`: the element that `list.sort()` followed by `list[0]` yields. -/
def selectMin {α : Type} (lt : α → α → Bool) (c : α) (cs : List α) : α :=
  cs.foldl (fun best x => if lt x best then x else best) c

/-- A candidate state of the optimal search:
`(total_cost, positions, indices_remaining)`. -/
structure Cand where
  cost : ℕ
  pos : List (List ℕ)
  rem : List (Finset ℕ)
deriving DecidableEq

/-- Python comparison of two optimal-search candidates, as used by
`new.sort()`: by cumulative cost, then lexicographically by the sequence of
chosen position pairs.  (The third tuple component, the remaining sets, is
never reached: distinct candidates have distinct position sequences.) -/
def candLt (a b : Cand) : Bool :=
  decide (a.cost < b.cost) || (a.cost == b.cost && posLt a.pos b.pos)

/-- Model of `zip(*np.triu_indices(n, 1))`: all pairs `(i, j)` with
`i < j < n`, in row-major order. -/
def triuPairs (n : ℕ) : List (ℕ × ℕ) :=
  (List.range n).flatMap (fun i =>
    ((List.range n).filter (fun j => decide (i < j))).map (fun j => (i, j)))

/-- Cost of one contraction step: the size of the contracted label set,
doubled when some label is removed. -/
def stepCostOf (d : ℕ → ℕ) (r : ContractionResult) : ℕ :=
  let c := sizeSet r.idx_contract d
  if r.idx_removed = ∅ then c else 2 * c

/-- One level of `_path_optimal`: extend every current candidate by every
memory-feasible pair of positions among its `k` remaining operands. -/
def optLevel (output_set : Finset ℕ) (d : ℕ → ℕ) (memory : ℕ) (k : ℕ)
    (current : List Cand) : List Cand :=
  current.flatMap (fun curr =>
    (triuPairs k).filterMap (fun con =>
      let r := find_contraction [con.1, con.2] curr.rem output_set
      if memory < sizeSet r.new_result d then none
      else some ⟨curr.cost + stepCostOf d r, curr.pos ++ [[con.1, con.2]], r.remaining⟩))

/-- The candidate list of `_path_optimal` after `t` iterations of its outer
loop (the Python loop counts pairs over `len(input_sets) - iteration`
positions at iteration `t`). -/
def optLevelsAux (input_sets : List (Finset ℕ)) (output_set : Finset ℕ)
    (d : ℕ → ℕ) (memory : ℕ) : ℕ → List Cand
  | 0 => [⟨0, [], input_sets⟩]
  | t + 1 =>
    optLevel output_set d memory (input_sets.length - t)
      (optLevelsAux input_sets output_set d memory t)

/-- Model of `_path_optimal`: run all `n - 1` levels; if nothing survived,
return the single whole-contraction fallback, otherwise the position sequence
of the least candidate under `new.sort()`. -/
def path_optimal (input_sets : List (Finset ℕ)) (output_set : Finset ℕ)
    (d : ℕ → ℕ) (memory : ℕ) : List (List ℕ) :=
  match optLevelsAux input_sets output_set d memory (input_sets.length - 1) with
  | [] => [List.range input_sets.length]
  | c :: cs => (selectMin candLt c cs).pos

/-- A candidate of one opportunistic iteration: `[sort, positions,
new_input_sets]` with `sort = (-removed_size, cost)`. -/
structure OppCand where
  key : ℤ × ℤ
  pos : ℕ × ℕ
  rem : List (Finset ℕ)
deriving DecidableEq

/-- Python lexicographic strict order on position pairs. -/
def pairLt (a b : ℕ × ℕ) : Bool :=
  decide (a.1 < b.1) || (a.1 == b.1 && decide (a.2 < b.2))

/-- Python comparison of two opportunistic candidates, as used by
`iteration_results.sort()`: by the sort key `(-removed_size, cost)`, then by
the position pair.  (The remaining sets are never compared: distinct
candidates have distinct position pairs.) -/
def oppLt (a b : OppCand) : Bool :=
  decide (a.key.1 < b.key.1) ||
    (a.key.1 == b.key.1 &&
      (decide (a.key.2 < b.key.2) || (a.key.2 == b.key.2 && pairLt a.pos b.pos)))

/-- The `iteration_results` list built by one opportunistic iteration. -/
def oppResults (input_sets : List (Finset ℕ)) (output_set : Finset ℕ)
    (d : ℕ → ℕ) (memory : ℕ) : List OppCand :=
  (triuPairs input_sets.length).filterMap (fun pos =>
    let r := find_contraction [pos.1, pos.2] input_sets output_set
    if memory < sizeSet r.new_result d then none
    else some ⟨(-(sizeSet r.idx_removed d : ℤ), (sizeSet r.idx_contract d : ℤ)),
               pos, r.remaining⟩)

/-- The candidate committed by one opportunistic iteration, if any: the least
element of `iteration_results` after sorting. -/
def oppSelect (input_sets : List (Finset ℕ)) (output_set : Finset ℕ)
    (d : ℕ → ℕ) (memory : ℕ) : Option OppCand :=
  match oppResults input_sets output_set d memory with
  | [] => none
  | c :: cs => some (selectMin oppLt c cs)

/-- The loop of `_path_opportunistic`, with the iteration count (fixed at
entry to `n - 1`) as fuel: commit the best pair each round, or append the
whole-contraction fallback and stop. -/
def oppGo (output_set : Finset ℕ) (d : ℕ → ℕ) (memory : ℕ) :
    ℕ → List (Finset ℕ) → List (List ℕ)
  | 0, _ => []
  | t + 1, input_sets =>
    match oppSelect input_sets output_set d memory with
    | none => [List.range input_sets.length]
    | some best => [best.pos.1, best.pos.2] :: oppGo output_set d memory t best.rem

/-- Model of `_path_opportunistic`. -/
def path_opportunistic (input_sets : List (Finset ℕ)) (output_set : Finset ℕ)
    (d : ℕ → ℕ) (memory : ℕ) : List (List ℕ) :=
  oppGo output_set d memory (input_sets.length - 1) input_sets

/-- The remaining sequence after executing one step of a path. -/
def applyStep (output_set : Finset ℕ) (rem : List (Finset ℕ)) (g : List ℕ) :
    List (Finset ℕ) :=
  (find_contraction g rem output_set).remaining

/-- The remaining sequence after executing every step of a path in order. -/
def replayRem (output_set : Finset ℕ) (rem : List (Finset ℕ))
    (p : List (List ℕ)) : List (Finset ℕ) :=
  p.foldl (applyStep output_set) rem

/-- Cumulative cost of a path: per-step contracted size, doubled when labels
are removed, summed over the steps. -/
def pathCost (output_set : Finset ℕ) (d : ℕ → ℕ) :
    List (Finset ℕ) → List (List ℕ) → ℕ
  | _, [] => 0
  | rem, g :: gs =>
    stepCostOf d (find_contraction g rem output_set) +
      pathCost output_set d (applyStep output_set rem g) gs

/-- One step is a valid memory-feasible pair step for the current remaining
sequence. -/
def stepValid (output_set : Finset ℕ) (d : ℕ → ℕ) (memory : ℕ)
    (rem : List (Finset ℕ)) (g : List ℕ) : Bool :=
  (match g with
   | [i, j] => decide (i < j) && decide (j < rem.length)
   | _ => false) &&
    decide (sizeSet (find_contraction g rem output_set).new_result d ≤ memory)

/-- All steps of a path are valid memory-feasible pair steps. -/
def validSteps (output_set : Finset ℕ) (d : ℕ → ℕ) (memory : ℕ) :
    List (Finset ℕ) → List (List ℕ) → Bool
  | _, [] => true
  | rem, g :: gs =>
    stepValid output_set d memory rem g &&
      validSteps output_set d memory (applyStep output_set rem g) gs

/-- The ordering key used by the materializer for intermediate results:
ascending label size, ties broken by label identity. -/
def sizeRel (d : ℕ → ℕ) (a b : ℕ) : Prop :=
  d a < d b ∨ (d a = d b ∧ a ≤ b)

instance sizeRelDec (d : ℕ → ℕ) : DecidableRel (sizeRel d) := fun a b => by
  unfold sizeRel; infer_instance

instance sizeRelTrans (d : ℕ → ℕ) : IsTrans ℕ (sizeRel d) where
  trans a b c hab hbc := by
    rcases hab with h1 | ⟨h1, h2⟩ <;> rcases hbc with h3 | ⟨h3, h4⟩
    · exact Or.inl (h1.trans h3)
    · exact Or.inl (h3 ▸ h1)
    · exact Or.inl (h1 ▸ h3)
    · exact Or.inr ⟨h1.trans h3, h2.trans h4⟩

instance sizeRelTotal (d : ℕ → ℕ) : IsTotal ℕ (sizeRel d) where
  total a b := by
    rcases lt_trichotomy (d a) (d b) with h | h | h
    · exact Or.inl (Or.inl h)
    · rcases le_total a b with h2 | h2
      · exact Or.inl (Or.inr ⟨h, h2⟩)
      · exact Or.inr (Or.inr ⟨h.symm, h2⟩)
    · exact Or.inr (Or.inl h)

instance sizeRelAntisymm (d : ℕ → ℕ) : IsAntisymm ℕ (sizeRel d) where
  antisymm a b hab hba := by
    rcases hab with h1 | ⟨h1, h2⟩ <;> rcases hba with h3 | ⟨h3, h4⟩
    · exact absurd (h1.trans h3) (lt_irrefl _)
    · exact absurd h1 (h3 ▸ lt_irrefl _)
    · exact absurd h3 (h1 ▸ lt_irrefl _)
    · exact le_antisymm h2 h4

/-- Ascending enumeration of a finite set of naturals. -/
def elemsOf (s : Finset ℕ) : List ℕ :=
  (List.range (s.sup id + 1)).filter (fun x => decide (x ∈ s))

/-- Model of `sorted([(dimension_dict[ind], ind) for ind in out_inds])`
followed by joining the labels: the elements of `out_inds` in ascending
order of `(size, label)`. -/
def sortByKey (d : ℕ → ℕ) (s : Finset ℕ) : List ℕ :=
  List.insertionSort (sizeRel d) (elemsOf s)

/-- Model of `sorted(list(contract_inds), reverse=True)`. -/
def sortDesc (g : List ℕ) : List ℕ :=
  List.insertionSort (fun a b => b ≤ a) g

instance geRelTotal : IsTotal ℕ (fun a b => b ≤ a) where
  total a b := le_total b a

instance geRelTrans : IsTrans ℕ (fun a b => b ≤ a) where
  trans _ _ _ hab hbc := le_trans hbc hab

/-- Model of `list.pop(i)`: the removed element and the remainder, or `none`
when the index is out of range. -/
def popAt : List α → ℕ → Option (α × List α)
  | [], _ => none
  | x :: xs, 0 => some (x, xs)
  | x :: xs, n + 1 => (popAt xs n).map (fun r => (r.1, x :: r.2))

/-- Pop the given indices from a list one after another (the order matters:
the materializer pops in descending index order), collecting the popped
elements. -/
def popMany (l : List (List ℕ)) : List ℕ → Option (List (List ℕ) × List (List ℕ))
  | [] => some ([], l)
  | i :: is =>
    match popAt l i with
    | none => none
    | some (x, rest) => (popMany rest is).map (fun r => (x :: r.1, r.2))

/-- One materialized contraction instruction, modelling the tuple
`(contract_inds, gemm, einsum_str, remaining)` built by `contract` (the
einsum string is kept as its two components: the popped input subscripts and
the result subscript). -/
structure Instr where
  contract_inds : List ℕ
  tmp_inputs : List (List ℕ)
  idx_result : List ℕ
  remaining : List (List ℕ)
deriving DecidableEq

/-- A path entry as `contract` receives it.  The Python code builds
`path = [(0)]` for a single operand, which is the integer `0`, not a tuple;
a group is therefore either a bare integer or a tuple of positions. -/
abbrev PyGroup := Sum ℕ (List ℕ)

/-- The materialization loop of `contract` (source lines 387 to 408): for
each step sort its positions descending, run the reducer, pop the consumed
subscripts, choose the result ordering (the declared output order for the
last step, ascending size then label otherwise), append the result
descriptor, and emit one instruction.  A bare-integer group fails like
`list(0)` does, and an out-of-range pop fails like `list.pop` does. -/
def matGo (out : List ℕ) (output_set : Finset ℕ) (d : ℕ → ℕ) :
    List PyGroup → List (List ℕ) → List (Finset ℕ) → Except String (List Instr)
  | [], _, _ => .ok []
  | g :: gs, input_list, input_sets =>
    match g with
    | .inl _ => .error ("TypeError: int object is not iterable")
    | .inr glist =>
      let inds := sortDesc glist
      let r := find_contraction inds input_sets output_set
      match popMany input_list inds with
      | none => .error ("IndexError: pop index out of range")
      | some (tmp, rest) =>
        let idx_result := if gs.isEmpty then out else sortByKey d r.new_result
        match matGo out output_set d gs (rest ++ [idx_result]) r.remaining with
        | .error e => .error e
        | .ok instrs => .ok (⟨inds, tmp, idx_result, rest ++ [idx_result]⟩ :: instrs)

/-- The `path` keyword argument of `contract`: either an explicit path or a
strategy name. -/
inductive PathArg where
  | explicitPath : List PyGroup → PathArg
  | name : String → PathArg

/-- Model of `out_size = max(size_list)`: the largest element count among
the input subscripts and the output subscript. -/
def out_size (terms : List (List ℕ)) (out : List ℕ) (d : ℕ → ℕ) : ℕ :=
  match (terms ++ [out]).map (fun t => compute_size_by_dict t d) with
  | [] => 0
  | x :: xs => xs.foldl max x

/-- The path-dispatch of `contract` (source lines 370 to 383): an explicit
path is used as given; otherwise one or two operands get a trivial path with
no strategy-name check, the opportunistic strategy runs with the memory
argument capped at `out_size`, the optimal strategy runs with the memory
argument as given, and any other name is a KeyError. -/
def computePath (pathArg : PathArg) (terms : List (List ℕ)) (out : List ℕ)
    (d : ℕ → ℕ) (memory : ℕ) : Except String (List PyGroup) :=
  let input_sets := terms.map List.toFinset
  let output_set := out.toFinset
  match pathArg with
  | .explicitPath p => .ok p
  | .name s =>
    if terms.length = 1 then .ok [Sum.inl 0]
    else if terms.length = 2 then .ok [Sum.inr [0, 1]]
    else if s = "opportunistic" then
      .ok ((path_opportunistic input_sets output_set d
             (min memory (out_size terms out d))).map Sum.inr)
    else if s = "optimal" then
      .ok ((path_optimal input_sets output_set d memory).map Sum.inr)
    else .error ("KeyError: Path name not found")

/-- The path-dispatch plus materialization part of `contract`: compute (or
accept) the path, then build the contraction list. -/
def contract (pathArg : PathArg) (terms : List (List ℕ)) (out : List ℕ)
    (d : ℕ → ℕ) (memory : ℕ) : Except String (List Instr) :=
  match computePath pathArg terms out d memory with
  | .error e => .error e
  | .ok p => matGo out out.toFinset d p terms (terms.map List.toFinset)

/-- Every group of a path is a tuple of pairwise distinct in-range positions
for the evolving length of the live operand list (each step replaces the
consumed operands by one result). -/
def groupsOk : List PyGroup → ℕ → Bool
  | [], _ => true
  | .inl _ :: _, _ => false
  | .inr g :: gs, m =>
    (decide g.Nodup && g.all (fun i => decide (i < m))) &&
      groupsOk gs (m - g.length + 1)

lemma mem_unionF {x : ℕ} {l : List (Finset ℕ)} :
    x ∈ unionF l ↔ ∃ s ∈ l, x ∈ s := by
  induction l with
  | nil => simp [unionF]
  | cons v rest ih =>
    rw [show unionF (v :: rest) = v ∪ unionF rest from rfl, Finset.mem_union, ih]
    constructor
    · rintro (h | ⟨s, hs, hx⟩)
      · exact ⟨v, List.mem_cons_self _ _, h⟩
      · exact ⟨s, List.mem_cons_of_mem _ hs, hx⟩
    · rintro ⟨s, hs, hx⟩
      rcases List.mem_cons.mp hs with rfl | hs
      · exact Or.inl hx
      · exact Or.inr ⟨s, hs, hx⟩

lemma fcScan_nil (positions : List ℕ) (k : ℕ) :
    fcScan positions k [] = (∅, ∅, []) := rfl

lemma fcScan_cons_pos {positions : List ℕ} {k : ℕ} (h : k ∈ positions)
    (v : Finset ℕ) (rest : List (Finset ℕ)) :
    fcScan positions k (v :: rest) =
      ((fcScan positions (k + 1) rest).1 ∪ v, (fcScan positions (k + 1) rest).2.1,
        (fcScan positions (k + 1) rest).2.2) := by
  simp [fcScan, h]

lemma fcScan_cons_neg {positions : List ℕ} {k : ℕ} (h : k ∉ positions)
    (v : Finset ℕ) (rest : List (Finset ℕ)) :
    fcScan positions k (v :: rest) =
      ((fcScan positions (k + 1) rest).1, (fcScan positions (k + 1) rest).2.1 ∪ v,
        v :: (fcScan positions (k + 1) rest).2.2) := by
  simp [fcScan, h]

lemma fcScan_list (positions : List ℕ) (l : List (Finset ℕ)) : ∀ k,
    (fcScan positions k l).2.2 =
      ((l.enumFrom k).filter (fun p => decide (p.1 ∉ positions))).map Prod.snd := by
  induction l with
  | nil => intro k; simp [fcScan]
  | cons v rest ih =>
    intro k
    rw [List.enumFrom_cons, List.filter_cons]
    by_cases h : k ∈ positions
    · rw [fcScan_cons_pos h]
      simp [h, ih (k + 1)]
    · rw [fcScan_cons_neg h]
      simp [h, ih (k + 1)]

lemma mem_fcScan_sel {positions : List ℕ} {l : List (Finset ℕ)} : ∀ k x,
    x ∈ (fcScan positions k l).1 ↔ ∃ p ∈ l.enumFrom k, p.1 ∈ positions ∧ x ∈ p.2 := by
  induction l with
  | nil => intro k x; simp [fcScan]
  | cons v rest ih =>
    intro k x
    rw [List.enumFrom_cons]
    by_cases h : k ∈ positions
    · rw [fcScan_cons_pos h]
      simp only [Finset.mem_union]
      constructor
      · rintro (hx | hx)
        · obtain ⟨p, hp, h1, h2⟩ := (ih (k + 1) x).mp hx
          exact ⟨p, List.mem_cons_of_mem _ hp, h1, h2⟩
        · exact ⟨(k, v), List.mem_cons_self _ _, h, hx⟩
      · rintro ⟨p, hp, h1, h2⟩
        rcases List.mem_cons.mp hp with rfl | hp
        · exact Or.inr h2
        · exact Or.inl ((ih (k + 1) x).mpr ⟨p, hp, h1, h2⟩)
    · rw [fcScan_cons_neg h]
      constructor
      · intro hx
        obtain ⟨p, hp, h1, h2⟩ := (ih (k + 1) x).mp hx
        exact ⟨p, List.mem_cons_of_mem _ hp, h1, h2⟩
      · rintro ⟨p, hp, h1, h2⟩
        rcases List.mem_cons.mp hp with rfl | hp
        · exact absurd h1 h
        · exact (ih (k + 1) x).mpr ⟨p, hp, h1, h2⟩

lemma mem_fcScan_nonsel {positions : List ℕ} {l : List (Finset ℕ)} : ∀ k x,
    x ∈ (fcScan positions k l).2.1 ↔ ∃ p ∈ l.enumFrom k, p.1 ∉ positions ∧ x ∈ p.2 := by
  induction l with
  | nil => intro k x; simp [fcScan]
  | cons v rest ih =>
    intro k x
    rw [List.enumFrom_cons]
    by_cases h : k ∈ positions
    · rw [fcScan_cons_pos h]
      constructor
      · intro hx
        obtain ⟨p, hp, h1, h2⟩ := (ih (k + 1) x).mp hx
        exact ⟨p, List.mem_cons_of_mem _ hp, h1, h2⟩
      · rintro ⟨p, hp, h1, h2⟩
        rcases List.mem_cons.mp hp with rfl | hp
        · exact absurd h h1
        · exact (ih (k + 1) x).mpr ⟨p, hp, h1, h2⟩
    · rw [fcScan_cons_neg h]
      simp only [Finset.mem_union]
      constructor
      · rintro (hx | hx)
        · obtain ⟨p, hp, h1, h2⟩ := (ih (k + 1) x).mp hx
          exact ⟨p, List.mem_cons_of_mem _ hp, h1, h2⟩
        · exact ⟨(k, v), List.mem_cons_self _ _, h, hx⟩
      · rintro ⟨p, hp, h1, h2⟩
        rcases List.mem_cons.mp hp with rfl | hp
        · exact Or.inr h2
        · exact Or.inl ((ih (k + 1) x).mpr ⟨p, hp, h1, h2⟩)

lemma mem_unionF_nonSel {positions : List ℕ} {l : List (Finset ℕ)} {x : ℕ} :
    x ∈ unionF (nonSel positions l) ↔
      ∃ p ∈ l.enum, p.1 ∉ positions ∧ x ∈ p.2 := by
  constructor
  · intro hx
    obtain ⟨s, hs, hxs⟩ := mem_unionF.mp hx
    simp only [nonSel] at hs
    obtain ⟨p, hp, rfl⟩ := List.mem_map.mp hs
    obtain ⟨hpl, hpd⟩ := List.mem_filter.mp hp
    exact ⟨p, hpl, by simpa using hpd, hxs⟩
  · rintro ⟨p, hp, hd, hx⟩
    refine mem_unionF.mpr ⟨p.2, ?_, hx⟩
    simp only [nonSel]
    exact List.mem_map.mpr ⟨p, List.mem_filter.mpr ⟨hp, by simpa using hd⟩, rfl⟩

lemma mem_unionF_selSets {positions : List ℕ} {l : List (Finset ℕ)} {x : ℕ} :
    x ∈ unionF (selSets positions l) ↔
      ∃ p ∈ l.enum, p.1 ∈ positions ∧ x ∈ p.2 := by
  constructor
  · intro hx
    obtain ⟨s, hs, hxs⟩ := mem_unionF.mp hx
    simp only [selSets] at hs
    obtain ⟨p, hp, rfl⟩ := List.mem_map.mp hs
    obtain ⟨hpl, hpd⟩ := List.mem_filter.mp hp
    exact ⟨p, hpl, by simpa using hpd, hxs⟩
  · rintro ⟨p, hp, hd, hx⟩
    refine mem_unionF.mpr ⟨p.2, ?_, hx⟩
    simp only [selSets]
    exact List.mem_map.mpr ⟨p, List.mem_filter.mpr ⟨hp, by simpa using hd⟩, rfl⟩

lemma fc_new_result_def (positions : List ℕ) (l : List (Finset ℕ)) (oset : Finset ℕ) :
    (find_contraction positions l oset).new_result =
      (oset ∪ (fcScan positions 0 l).2.1) ∩ (fcScan positions 0 l).1 := rfl

lemma fc_remaining_def (positions : List ℕ) (l : List (Finset ℕ)) (oset : Finset ℕ) :
    (find_contraction positions l oset).remaining =
      (fcScan positions 0 l).2.2 ++ [(find_contraction positions l oset).new_result] := rfl

lemma fc_idx_contract_def (positions : List ℕ) (l : List (Finset ℕ)) (oset : Finset ℕ) :
    (find_contraction positions l oset).idx_contract = (fcScan positions 0 l).1 := rfl

lemma fc_idx_removed (positions : List ℕ) (l : List (Finset ℕ)) (oset : Finset ℕ) :
    (find_contraction positions l oset).idx_removed =
      (find_contraction positions l oset).idx_contract \
        (find_contraction positions l oset).new_result := rfl

lemma enum_eq_enumFrom (l : List (Finset ℕ)) : l.enum = l.enumFrom 0 := rfl

lemma fc_idx_contract (positions : List ℕ) (l : List (Finset ℕ)) (oset : Finset ℕ) :
    (find_contraction positions l oset).idx_contract = unionF (selSets positions l) := by
  ext x
  rw [fc_idx_contract_def, mem_fcScan_sel 0 x, mem_unionF_selSets, enum_eq_enumFrom]

lemma mem_fc_new_result {positions : List ℕ} {l : List (Finset ℕ)} {oset : Finset ℕ}
    {x : ℕ} :
    x ∈ (find_contraction positions l oset).new_result ↔
      (x ∈ oset ∨ x ∈ (fcScan positions 0 l).2.1) ∧ x ∈ (fcScan positions 0 l).1 := by
  rw [fc_new_result_def, Finset.mem_inter, Finset.mem_union]

lemma fc_new_result (positions : List ℕ) (l : List (Finset ℕ)) (oset : Finset ℕ) :
    (find_contraction positions l oset).new_result =
      (oset ∪ unionF (nonSel positions l)) ∩
        (find_contraction positions l oset).idx_contract := by
  ext x
  rw [mem_fc_new_result, Finset.mem_inter, Finset.mem_union, fc_idx_contract_def,
    mem_fcScan_nonsel 0 x, mem_unionF_nonSel, enum_eq_enumFrom]

lemma fc_remaining (positions : List ℕ) (l : List (Finset ℕ)) (oset : Finset ℕ) :
    (find_contraction positions l oset).remaining =
      nonSel positions l ++ [(find_contraction positions l oset).new_result] := by
  rw [fc_remaining_def, fcScan_list, nonSel, enum_eq_enumFrom]

/-- C2: `_find_contraction` returns the contracted labels as the union of the
selected descriptors, the surviving labels as the union of the output set and
the non-selected descriptors intersected with the contracted labels, the
removed labels as their difference (so surviving and removed labels are a
disjoint decomposition of the contracted labels), and the updated remaining
sequence as the non-selected descriptors in original order with the surviving
set appended at the end. -/
theorem find_contraction_spec (positions : List ℕ) (input_sets : List (Finset ℕ))
    (output_set : Finset ℕ) :
    (find_contraction positions input_sets output_set).idx_contract =
        unionF (selSets positions input_sets) ∧
    (find_contraction positions input_sets output_set).new_result =
        (output_set ∪ unionF (nonSel positions input_sets)) ∩
          (find_contraction positions input_sets output_set).idx_contract ∧
    (find_contraction positions input_sets output_set).idx_removed =
        (find_contraction positions input_sets output_set).idx_contract \
          (find_contraction positions input_sets output_set).new_result ∧
    ((find_contraction positions input_sets output_set).new_result ∪
        (find_contraction positions input_sets output_set).idx_removed =
          (find_contraction positions input_sets output_set).idx_contract ∧
      (find_contraction positions input_sets output_set).new_result ∩
        (find_contraction positions input_sets output_set).idx_removed = ∅) ∧
    (find_contraction positions input_sets output_set).remaining =
        nonSel positions input_sets ++
          [(find_contraction positions input_sets output_set).new_result] := by
  refine ⟨fc_idx_contract _ _ _, fc_new_result _ _ _, fc_idx_removed _ _ _, ⟨?_, ?_⟩,
    fc_remaining _ _ _⟩
  · rw [fc_idx_removed, fc_new_result]
    ext x
    simp only [Finset.mem_union, Finset.mem_sdiff, Finset.mem_inter]
    tauto
  · rw [fc_idx_removed]
    ext x
    simp only [Finset.mem_inter, Finset.mem_sdiff, Finset.not_mem_empty, iff_false]
    tauto

lemma listLtNat_irrefl (a : List ℕ) : listLtNat a a = false := by
  induction a with
  | nil => rfl
  | cons x xs ih => simp [listLtNat, ih]

lemma listLtNat_trans : ∀ (b a c : List ℕ),
    listLtNat a b = true → listLtNat b c = true → listLtNat a c = true := by
  intro b
  induction b with
  | nil => intro a c hab; cases a <;> simp [listLtNat] at hab
  | cons b0 bs ih =>
    intro a c hab hbc
    cases c with
    | nil => simp [listLtNat] at hbc
    | cons c0 cs =>
      cases a with
      | nil => simp [listLtNat]
      | cons a0 as =>
        simp only [listLtNat, Bool.or_eq_true, Bool.and_eq_true, decide_eq_true_eq,
          beq_iff_eq] at hab hbc ⊢
        rcases hab with h1 | ⟨rfl, h2⟩
        · rcases hbc with h3 | ⟨rfl, h4⟩
          · exact Or.inl (h1.trans h3)
          · exact Or.inl h1
        · rcases hbc with h3 | ⟨rfl, h4⟩
          · exact Or.inl h3
          · exact Or.inr ⟨rfl, ih as cs h2 h4⟩

lemma listLtNat_conn : ∀ (a b : List ℕ),
    listLtNat a b = false → listLtNat b a = true ∨ b = a := by
  intro a
  induction a with
  | nil =>
    intro b h
    cases b with
    | nil => exact Or.inr rfl
    | cons b0 bs => simp [listLtNat] at h
  | cons a0 as ih =>
    intro b h
    cases b with
    | nil => exact Or.inl (by simp [listLtNat])
    | cons b0 bs =>
      rcases Nat.lt_trichotomy a0 b0 with h1 | h1 | h1
      · simp [listLtNat, h1] at h
      · subst h1
        have h2 : listLtNat as bs = false := by
          cases hx : listLtNat as bs
          · rfl
          · simp [listLtNat, hx] at h
        rcases ih bs h2 with h3 | rfl
        · exact Or.inl (by simp [listLtNat, h3])
        · exact Or.inr rfl
      · exact Or.inl (by simp [listLtNat, h1])

lemma posLt_irrefl (a : List (List ℕ)) : posLt a a = false := by
  induction a with
  | nil => rfl
  | cons x xs ih => simp [posLt, ih, listLtNat_irrefl]

lemma posLt_trans : ∀ (b a c : List (List ℕ)),
    posLt a b = true → posLt b c = true → posLt a c = true := by
  intro b
  induction b with
  | nil => intro a c hab; cases a <;> simp [posLt] at hab
  | cons b0 bs ih =>
    intro a c hab hbc
    cases c with
    | nil => simp [posLt] at hbc
    | cons c0 cs =>
      cases a with
      | nil => simp [posLt]
      | cons a0 as =>
        simp only [posLt, Bool.or_eq_true, Bool.and_eq_true, beq_iff_eq] at hab hbc ⊢
        rcases hab with h1 | ⟨rfl, h2⟩
        · rcases hbc with h3 | ⟨rfl, h4⟩
          · exact Or.inl (listLtNat_trans _ _ _ h1 h3)
          · exact Or.inl h1
        · rcases hbc with h3 | ⟨rfl, h4⟩
          · exact Or.inl h3
          · exact Or.inr ⟨rfl, ih as cs h2 h4⟩

lemma posLt_conn : ∀ (a b : List (List ℕ)),
    posLt a b = false → posLt b a = true ∨ b = a := by
  intro a
  induction a with
  | nil =>
    intro b h
    cases b with
    | nil => exact Or.inr rfl
    | cons b0 bs => simp [posLt] at h
  | cons a0 as ih =>
    intro b h
    cases b with
    | nil => exact Or.inl (by simp [posLt])
    | cons b0 bs =>
      have hb0 : listLtNat a0 b0 = false := by
        cases hx : listLtNat a0 b0
        · rfl
        · simp [posLt, hx] at h
      rcases listLtNat_conn a0 b0 hb0 with h1 | rfl
      · exact Or.inl (by simp [posLt, h1])
      · have h2 : posLt as bs = false := by
          cases hx : posLt as bs
          · rfl
          · simp [posLt, hx] at h
        rcases ih bs h2 with h3 | rfl
        · exact Or.inl (by simp [posLt, h3])
        · exact Or.inr rfl

lemma candLt_irrefl (a : Cand) : candLt a a = false := by
  simp [candLt, posLt_irrefl]

lemma candLt_trans (a b c : Cand) :
    candLt a b = true → candLt b c = true → candLt a c = true := by
  intro hab hbc
  simp only [candLt, Bool.or_eq_true, Bool.and_eq_true, decide_eq_true_eq,
    beq_iff_eq] at hab hbc ⊢
  rcases hab with h1 | ⟨h1, h2⟩
  · rcases hbc with h3 | ⟨h3, h4⟩
    · exact Or.inl (h1.trans h3)
    · exact Or.inl (h3 ▸ h1)
  · rcases hbc with h3 | ⟨h3, h4⟩
    · exact Or.inl (h1 ▸ h3)
    · exact Or.inr ⟨h1.trans h3, posLt_trans _ _ _ h2 h4⟩

lemma candLt_conn (a b : Cand) :
    candLt a b = false → candLt b a = true ∨ ∀ z, candLt b z = candLt a z := by
  intro h
  simp only [candLt, Bool.or_eq_false_iff, Bool.and_eq_false_iff,
    decide_eq_false_iff_not, beq_eq_false_iff_ne, ne_eq] at h
  obtain ⟨h1, h2⟩ := h
  rcases Nat.lt_trichotomy a.cost b.cost with hc | hc | hc
  · exact absurd hc h1
  · rcases h2 with h2 | h2
    · exact absurd hc h2
    · rcases posLt_conn a.pos b.pos h2 with h3 | h3
      · exact Or.inl (by simp [candLt, hc, h3])
      · exact Or.inr (fun z => by simp [candLt, hc, h3])
  · exact Or.inl (by simp [candLt, hc])

lemma pairLt_irrefl (a : ℕ × ℕ) : pairLt a a = false := by
  simp [pairLt]

lemma pairLt_trans (a b c : ℕ × ℕ) :
    pairLt a b = true → pairLt b c = true → pairLt a c = true := by
  intro hab hbc
  simp only [pairLt, Bool.or_eq_true, Bool.and_eq_true, decide_eq_true_eq,
    beq_iff_eq] at hab hbc ⊢
  omega

lemma pairLt_conn (a b : ℕ × ℕ) :
    pairLt a b = false → pairLt b a = true ∨ b = a := by
  intro h
  simp only [pairLt, Bool.or_eq_false_iff, Bool.and_eq_false_iff,
    decide_eq_false_iff_not, beq_eq_false_iff_ne, ne_eq] at h
  by_cases he : b = a
  · exact Or.inr he
  · refine Or.inl ?_
    simp only [pairLt, Bool.or_eq_true, Bool.and_eq_true, decide_eq_true_eq, beq_iff_eq]
    have : b.1 ≠ a.1 ∨ b.2 ≠ a.2 := by
      by_contra hc
      push_neg at hc
      exact he (Prod.ext hc.1 hc.2)
    omega

lemma oppLt_irrefl (a : OppCand) : oppLt a a = false := by
  simp [oppLt, pairLt_irrefl]

lemma oppLt_trans (a b c : OppCand) :
    oppLt a b = true → oppLt b c = true → oppLt a c = true := by
  intro hab hbc
  simp only [oppLt, Bool.or_eq_true, Bool.and_eq_true, decide_eq_true_eq,
    beq_iff_eq] at hab hbc ⊢
  rcases hab with h1 | ⟨h1, h2 | ⟨h2, h3⟩⟩ <;>
    rcases hbc with h4 | ⟨h4, h5 | ⟨h5, h6⟩⟩
  · exact Or.inl (h1.trans h4)
  · exact Or.inl (h4 ▸ h1)
  · exact Or.inl (h4 ▸ h1)
  · exact Or.inl (h1 ▸ h4)
  · exact Or.inr ⟨h1.trans h4, Or.inl (h2.trans h5)⟩
  · exact Or.inr ⟨h1.trans h4, Or.inl (h5 ▸ h2)⟩
  · exact Or.inl (h1 ▸ h4)
  · exact Or.inr ⟨h1.trans h4, Or.inl (h2 ▸ h5)⟩
  · exact Or.inr ⟨h1.trans h4, Or.inr ⟨h2.trans h5, pairLt_trans _ _ _ h3 h6⟩⟩

lemma oppLt_conn (a b : OppCand) :
    oppLt a b = false → oppLt b a = true ∨ ∀ z, oppLt b z = oppLt a z := by
  intro h
  rcases Int.lt_trichotomy a.key.1 b.key.1 with hc | hc | hc
  · exact absurd h (by simp [oppLt, hc])
  · rcases Int.lt_trichotomy a.key.2 b.key.2 with hd | hd | hd
    · exact absurd h (by simp [oppLt, hc, hd])
    · have hp : pairLt a.pos b.pos = false := by
        cases hx : pairLt a.pos b.pos
        · rfl
        · exact absurd h (by simp [oppLt, hc, hd, hx])
      rcases pairLt_conn a.pos b.pos hp with h3 | h3
      · exact Or.inl (by simp [oppLt, hc, hd, h3])
      · exact Or.inr (fun z => by simp [oppLt, hc, hd, h3])
    · exact Or.inl (by simp [oppLt, hc, hd])
  · exact Or.inl (by simp [oppLt, hc])

lemma selectMin_cons {α : Type} (lt : α → α → Bool) (c y : α) (ys : List α) :
    selectMin lt c (y :: ys) = selectMin lt (if lt y c then y else c) ys := rfl

lemma selectMin_mem {α : Type} (lt : α → α → Bool) (cs : List α) : ∀ (c : α),
    selectMin lt c cs = c ∨ selectMin lt c cs ∈ cs := by
  induction cs with
  | nil => intro c; exact Or.inl rfl
  | cons y ys ih =>
    intro c
    rw [selectMin_cons]
    by_cases hy : lt y c = true
    · rw [if_pos hy]
      rcases ih y with h | h
      · rw [h]
        exact Or.inr (List.mem_cons_self _ _)
      · exact Or.inr (List.mem_cons_of_mem _ h)
    · rw [if_neg hy]
      rcases ih c with h | h
      · exact Or.inl h
      · exact Or.inr (List.mem_cons_of_mem _ h)

lemma selectMin_not_lt {α : Type} (lt : α → α → Bool)
    (hirr : ∀ a, lt a a = false)
    (htrans : ∀ a b c, lt a b = true → lt b c = true → lt a c = true)
    (hconn : ∀ a b, lt a b = false → lt b a = true ∨ ∀ z, lt b z = lt a z)
    (cs : List α) : ∀ (c x : α), (x = c ∨ x ∈ cs) → lt x (selectMin lt c cs) = false := by
  induction cs with
  | nil =>
    intro c x hx
    rcases hx with rfl | h
    · exact hirr x
    · exact absurd h (List.not_mem_nil _)
  | cons y ys ih =>
    intro c x hx
    rw [selectMin_cons]
    have hbase : lt (if lt y c then y else c)
        (selectMin lt (if lt y c then y else c) ys) = false :=
      ih (if lt y c then y else c) (if lt y c then y else c) (Or.inl rfl)
    rcases hx with rfl | hx
    · by_cases hy : lt y x = true
      · rw [if_pos hy] at hbase ⊢
        cases hxm : lt x (selectMin lt y ys)
        · rfl
        · exact absurd (htrans y x _ hy hxm) (by simp [hbase])
      · rw [if_neg hy] at hbase ⊢
        exact hbase
    · rcases List.mem_cons.mp hx with rfl | hx
      · by_cases hy : lt x c = true
        · rw [if_pos hy] at hbase ⊢
          exact hbase
        · rw [if_neg hy] at hbase ⊢
          have hy' : lt x c = false := by simpa using hy
          rcases hconn x c hy' with h1 | h1
          · cases hxm : lt x (selectMin lt c ys)
            · rfl
            · exact absurd (htrans c x _ h1 hxm) (by simp [hbase])
          · rw [← h1 (selectMin lt c ys)]
            exact hbase
      · exact ih _ x (Or.inr hx)

lemma mem_triuPairs {n i j : ℕ} : (i, j) ∈ triuPairs n ↔ i < j ∧ j < n := by
  simp only [triuPairs, List.mem_flatMap, List.mem_map, List.mem_filter, List.mem_range,
    decide_eq_true_eq]
  constructor
  · rintro ⟨a, _, b, ⟨hb, hab⟩, h⟩
    cases h
    exact ⟨hab, hb⟩
  · rintro ⟨hij, hj⟩
    exact ⟨i, hij.trans hj, j, ⟨hj, hij⟩, rfl⟩

lemma length_filter_enumFrom {α : Type} (l : List α) (q : ℕ → Bool) : ∀ k,
    ((l.enumFrom k).filter (fun p => q p.1)).length =
      ((List.range' k l.length).filter q).length := by
  induction l with
  | nil => intro k; simp
  | cons v rest ih =>
    intro k
    rw [List.enumFrom_cons]
    simp only [List.length_cons]
    rw [List.range'_succ, List.filter_cons, List.filter_cons]
    cases hq : q k <;> simp [hq, ih (k + 1)]

lemma nonSel_length (positions : List ℕ) (l : List (Finset ℕ)) :
    (nonSel positions l).length =
      ((List.range l.length).filter (fun x => decide (x ∉ positions))).length := by
  rw [nonSel, List.length_map, enum_eq_enumFrom,
    length_filter_enumFrom l (fun x => decide (x ∉ positions)) 0, List.range_eq_range']

lemma filter_not_mem_pair_length {n i j : ℕ} (hij : i < j) (hj : j < n) :
    ((List.range n).filter (fun x => decide (x ∉ ([i, j] : List ℕ)))).length = n - 2 := by
  have hcong : (List.range n).filter (fun x => decide (x ∉ ([i, j] : List ℕ))) =
      ((List.range n).filter (fun x => x ≠ j)).filter (fun x => x ≠ i) := by
    rw [List.filter_filter]
    refine List.filter_congr ?_
    intro x _
    by_cases h1 : x = i <;> by_cases h2 : x = j <;> simp [h1, h2]
  have hnd : ((List.range n).filter (fun x => x ≠ j)) = (List.range n).erase j := by
    rw [(List.nodup_range n).erase_eq_filter]
    refine List.filter_congr ?_
    intro x _
    by_cases h : x = j <;> simp [h]
  have hndi : (((List.range n).filter (fun x => x ≠ j)).filter (fun x => x ≠ i)) =
      ((List.range n).erase j).erase i := by
    rw [hnd, (((List.nodup_range n).erase j)).erase_eq_filter]
    refine List.filter_congr ?_
    intro x _
    by_cases h : x = i <;> simp [h]
  have h1 : j ∈ List.range n := List.mem_range.mpr hj
  have h2 : i ∈ (List.range n).erase j := by
    rw [List.mem_erase_of_ne (by omega : i ≠ j), List.mem_range]
    omega
  rw [hcong, hndi, List.length_erase_of_mem h2, List.length_erase_of_mem h1,
    List.length_range]
  omega

lemma applyStep_length_pair (oset : Finset ℕ) {rem : List (Finset ℕ)} {i j : ℕ}
    (hij : i < j) (hj : j < rem.length) :
    (applyStep oset rem [i, j]).length + 1 = rem.length := by
  rw [applyStep, fc_remaining, List.length_append, List.length_cons, List.length_nil,
    nonSel_length, filter_not_mem_pair_length hij hj]
  omega

lemma replayRem_nil (oset : Finset ℕ) (rem : List (Finset ℕ)) :
    replayRem oset rem [] = rem := rfl

lemma replayRem_cons (oset : Finset ℕ) (rem : List (Finset ℕ)) (g : List ℕ)
    (p : List (List ℕ)) :
    replayRem oset rem (g :: p) = replayRem oset (applyStep oset rem g) p := rfl

lemma replayRem_append (oset : Finset ℕ) (rem : List (Finset ℕ)) (p q : List (List ℕ)) :
    replayRem oset rem (p ++ q) = replayRem oset (replayRem oset rem p) q := by
  simp [replayRem, List.foldl_append]

lemma pathCost_append_single (oset : Finset ℕ) (d : ℕ → ℕ) (p : List (List ℕ)) :
    ∀ (rem : List (Finset ℕ)) (g : List ℕ),
    pathCost oset d rem (p ++ [g]) =
      pathCost oset d rem p +
        stepCostOf d (find_contraction g (replayRem oset rem p) oset) := by
  induction p with
  | nil => intro rem g; simp [pathCost, replayRem_nil]
  | cons h t ih =>
    intro rem g
    rw [List.cons_append, pathCost, pathCost, ih, replayRem_cons]
    omega

lemma validSteps_append_single (oset : Finset ℕ) (d : ℕ → ℕ) (memory : ℕ)
    (p : List (List ℕ)) : ∀ (rem : List (Finset ℕ)) (g : List ℕ),
    validSteps oset d memory rem (p ++ [g]) =
      (validSteps oset d memory rem p &&
        stepValid oset d memory (replayRem oset rem p) g) := by
  induction p with
  | nil => intro rem g; simp [validSteps, replayRem_nil]
  | cons h t ih =>
    intro rem g
    rw [List.cons_append, validSteps, validSteps, ih, replayRem_cons, Bool.and_assoc]

lemma stepValid_shape {oset : Finset ℕ} {d : ℕ → ℕ} {memory : ℕ}
    {rem : List (Finset ℕ)} {g : List ℕ}
    (h : stepValid oset d memory rem g = true) :
    ∃ i j, g = [i, j] ∧ i < j ∧ j < rem.length ∧
      sizeSet (find_contraction g rem oset).new_result d ≤ memory := by
  rcases g with _ | ⟨i, _ | ⟨j, _ | ⟨k, t⟩⟩⟩
  · simp [stepValid] at h
  · simp [stepValid] at h
  · rw [stepValid, Bool.and_eq_true, Bool.and_eq_true] at h
    obtain ⟨⟨h1, h2⟩, h3⟩ := h
    exact ⟨i, j, rfl, by simpa using h1, by simpa using h2, by simpa using h3⟩
  · simp [stepValid] at h

lemma validSteps_replay_length {oset : Finset ℕ} {d : ℕ → ℕ} {memory : ℕ}
    {p : List (List ℕ)} : ∀ {rem : List (Finset ℕ)},
    validSteps oset d memory rem p = true →
    (replayRem oset rem p).length + p.length = rem.length := by
  induction p with
  | nil => intro rem _; simp [replayRem_nil]
  | cons g gs ih =>
    intro rem h
    rw [validSteps, Bool.and_eq_true] at h
    obtain ⟨h1, h2⟩ := h
    obtain ⟨i, j, rfl, hij, hj, _⟩ := stepValid_shape h1
    rw [replayRem_cons, List.length_cons]
    have := ih h2
    have hlen := applyStep_length_pair oset hij hj
    omega

lemma mem_optLevel {oset : Finset ℕ} {d : ℕ → ℕ} {memory k : ℕ}
    {cur : List Cand} {c : Cand} :
    c ∈ optLevel oset d memory k cur ↔
      ∃ curr ∈ cur, ∃ i j, i < j ∧ j < k ∧
        ¬(memory < sizeSet (find_contraction [i, j] curr.rem oset).new_result d) ∧
        c = ⟨curr.cost + stepCostOf d (find_contraction [i, j] curr.rem oset),
             curr.pos ++ [[i, j]],
             (find_contraction [i, j] curr.rem oset).remaining⟩ := by
  rw [optLevel, List.mem_flatMap]
  constructor
  · rintro ⟨curr, hcur, hc⟩
    rw [List.mem_filterMap] at hc
    obtain ⟨con, hcon, hf⟩ := hc
    simp only at hf
    by_cases hm : memory < sizeSet (find_contraction [con.1, con.2] curr.rem oset).new_result d
    · rw [if_pos hm] at hf
      cases hf
    · rw [if_neg hm] at hf
      obtain ⟨hij, hk⟩ := mem_triuPairs.mp hcon
      exact ⟨curr, hcur, con.1, con.2, hij, hk, hm, (Option.some_inj.mp hf).symm⟩
  · rintro ⟨curr, hcur, i, j, hij, hk, hm, rfl⟩
    refine ⟨curr, hcur, ?_⟩
    rw [List.mem_filterMap]
    refine ⟨(i, j), mem_triuPairs.mpr ⟨hij, hk⟩, ?_⟩
    simp only
    rw [if_neg hm]

lemma optLevelsAux_mem (inputs : List (Finset ℕ)) (oset : Finset ℕ) (d : ℕ → ℕ)
    (memory : ℕ) :
    ∀ (t : ℕ), t + 1 ≤ inputs.length → ∀ (c : Cand),
      (c ∈ optLevelsAux inputs oset d memory t ↔
        ∃ p, p.length = t ∧ validSteps oset d memory inputs p = true ∧
          c = ⟨pathCost oset d inputs p, p, replayRem oset inputs p⟩) := by
  intro t
  induction t with
  | zero =>
    intro _ c
    rw [optLevelsAux]
    constructor
    · intro hc
      rcases List.mem_singleton.mp hc with rfl
      exact ⟨[], rfl, rfl, by simp [pathCost, replayRem_nil]⟩
    · rintro ⟨p, hlen, hval, rfl⟩
      rw [List.length_eq_zero] at hlen
      subst hlen
      simp [pathCost, replayRem_nil]
  | succ t ih =>
    intro ht c
    rw [optLevelsAux, mem_optLevel]
    constructor
    · rintro ⟨curr, hcur, i, j, hij, hk, hm, rfl⟩
      obtain ⟨p, hlen, hval, rfl⟩ := (ih (by omega) curr).mp hcur
      dsimp only at hm
      have hrlen : (replayRem oset inputs p).length + p.length = inputs.length :=
        validSteps_replay_length hval
      have hj : j < (replayRem oset inputs p).length := by omega
      refine ⟨p ++ [[i, j]], by simp [hlen], ?_, ?_⟩
      · rw [validSteps_append_single, Bool.and_eq_true]
        refine ⟨hval, ?_⟩
        rw [stepValid]
        simp only [Bool.and_eq_true, decide_eq_true_eq]
        exact ⟨⟨hij, hj⟩, by omega⟩
      · rw [pathCost_append_single, replayRem_append]
        rfl
    · rintro ⟨p, hlen, hval, rfl⟩
      rcases List.eq_nil_or_concat p with rfl | ⟨q, g, rfl⟩
      · simp at hlen
      · rw [List.concat_eq_append] at hlen hval ⊢
        rw [validSteps_append_single, Bool.and_eq_true] at hval
        obtain ⟨hvq, hstep⟩ := hval
        obtain ⟨i, j, rfl, hij, hj, hsize⟩ := stepValid_shape hstep
        have hqlen : q.length = t := by simpa using hlen
        have hrlen : (replayRem oset inputs q).length + q.length = inputs.length :=
          validSteps_replay_length hvq
        refine ⟨⟨pathCost oset d inputs q, q, replayRem oset inputs q⟩,
          (ih (by omega) _).mpr ⟨q, hqlen, hvq, rfl⟩, i, j, hij, by omega, ?_, ?_⟩
        · dsimp only
          omega
        · rw [pathCost_append_single, replayRem_append]
          rfl

/-- C1: the path returned by `_path_optimal` is memory-feasible and complete,
its cumulative cost (contracted-size per step, doubled when labels are
removed, summed) is no greater than that of any other memory-feasible
complete pairwise path over the same inputs, and among minimal-cost paths
the lexicographically smallest sequence of position pairs is returned. -/
theorem path_optimal_minimal (inputs : List (Finset ℕ)) (output_set : Finset ℕ)
    (d : ℕ → ℕ) (memory : ℕ) (p : List (List ℕ))
    (hn : 2 ≤ inputs.length)
    (hplen : p.length = inputs.length - 1)
    (hpval : validSteps output_set d memory inputs p = true) :
    (path_optimal inputs output_set d memory).length = inputs.length - 1 ∧
    validSteps output_set d memory inputs (path_optimal inputs output_set d memory) = true ∧
    pathCost output_set d inputs (path_optimal inputs output_set d memory) ≤
      pathCost output_set d inputs p ∧
    (pathCost output_set d inputs (path_optimal inputs output_set d memory) =
        pathCost output_set d inputs p →
      path_optimal inputs output_set d memory = p ∨
        posLt (path_optimal inputs output_set d memory) p = true) := by
  have hinv := optLevelsAux_mem inputs output_set d memory (inputs.length - 1)
    (by omega)
  have hpmem : (⟨pathCost output_set d inputs p, p, replayRem output_set inputs p⟩ : Cand) ∈
      optLevelsAux inputs output_set d memory (inputs.length - 1) :=
    (hinv _).mpr ⟨p, hplen, hpval, rfl⟩
  rcases hfm : optLevelsAux inputs output_set d memory (inputs.length - 1) with _ | ⟨c, cs⟩
  · rw [hfm] at hpmem
    exact absurd hpmem (List.not_mem_nil _)
  · have hpath : path_optimal inputs output_set d memory = (selectMin candLt c cs).pos := by
      rw [path_optimal, hfm]
    have hselmem : selectMin candLt c cs ∈
        optLevelsAux inputs output_set d memory (inputs.length - 1) := by
      rw [hfm]
      rcases selectMin_mem candLt cs c with h | h
      · rw [h]
        exact List.mem_cons_self _ _
      · exact List.mem_cons_of_mem _ h
    obtain ⟨q, hqlen, hqval, hq⟩ := (hinv _).mp hselmem
    have hpath2 : path_optimal inputs output_set d memory = q := by
      rw [hpath, hq]
    have hlt : candLt ⟨pathCost output_set d inputs p, p, replayRem output_set inputs p⟩
        (selectMin candLt c cs) = false := by
      refine selectMin_not_lt candLt candLt_irrefl candLt_trans candLt_conn cs c _ ?_
      rw [hfm] at hpmem
      rcases List.mem_cons.mp hpmem with h | h
      · exact Or.inl h
      · exact Or.inr h
    rw [hq, candLt] at hlt
    simp only [Bool.or_eq_false_iff, Bool.and_eq_false_iff, decide_eq_false_iff_not,
      beq_eq_false_iff_ne, ne_eq] at hlt
    obtain ⟨hcost, htie⟩ := hlt
    rw [hpath2]
    refine ⟨hqlen, hqval, by omega, ?_⟩
    intro heq
    rcases htie with htie | htie
    · exact absurd heq.symm htie
    · rcases posLt_conn p q htie with h | h
      · exact Or.inr h
      · exact Or.inl h

/-- Witness for C1 at a concrete three-operand instance. -/
theorem path_optimal_minimal_witness :
    2 ≤ ([{0, 1}, {1, 2}, {2, 3}] : List (Finset ℕ)).length ∧
    ([[1, 2], [0, 1]] : List (List ℕ)).length =
      ([{0, 1}, {1, 2}, {2, 3}] : List (Finset ℕ)).length - 1 ∧
    validSteps {0, 3} (fun i => [2, 3, 4, 5].getD i 1) 1000
      [{0, 1}, {1, 2}, {2, 3}] [[1, 2], [0, 1]] = true ∧
    ((path_optimal [{0, 1}, {1, 2}, {2, 3}] {0, 3} (fun i => [2, 3, 4, 5].getD i 1)
        1000).length = ([{0, 1}, {1, 2}, {2, 3}] : List (Finset ℕ)).length - 1 ∧
      validSteps {0, 3} (fun i => [2, 3, 4, 5].getD i 1) 1000 [{0, 1}, {1, 2}, {2, 3}]
        (path_optimal [{0, 1}, {1, 2}, {2, 3}] {0, 3} (fun i => [2, 3, 4, 5].getD i 1)
          1000) = true ∧
      pathCost {0, 3} (fun i => [2, 3, 4, 5].getD i 1) [{0, 1}, {1, 2}, {2, 3}]
          (path_optimal [{0, 1}, {1, 2}, {2, 3}] {0, 3} (fun i => [2, 3, 4, 5].getD i 1)
            1000) ≤
        pathCost {0, 3} (fun i => [2, 3, 4, 5].getD i 1) [{0, 1}, {1, 2}, {2, 3}]
          [[1, 2], [0, 1]] ∧
      (pathCost {0, 3} (fun i => [2, 3, 4, 5].getD i 1) [{0, 1}, {1, 2}, {2, 3}]
            (path_optimal [{0, 1}, {1, 2}, {2, 3}] {0, 3}
              (fun i => [2, 3, 4, 5].getD i 1) 1000) =
          pathCost {0, 3} (fun i => [2, 3, 4, 5].getD i 1) [{0, 1}, {1, 2}, {2, 3}]
            [[1, 2], [0, 1]] →
        path_optimal [{0, 1}, {1, 2}, {2, 3}] {0, 3} (fun i => [2, 3, 4, 5].getD i 1)
            1000 = [[1, 2], [0, 1]] ∨
          posLt (path_optimal [{0, 1}, {1, 2}, {2, 3}] {0, 3}
              (fun i => [2, 3, 4, 5].getD i 1) 1000) [[1, 2], [0, 1]] = true)) :=
  ⟨by decide, by decide, by decide,
    path_optimal_minimal [{0, 1}, {1, 2}, {2, 3}] {0, 3}
      (fun i => [2, 3, 4, 5].getD i 1) 1000 [[1, 2], [0, 1]]
      (by decide) (by decide) (by decide)⟩

lemma mem_oppResults {inputs : List (Finset ℕ)} {oset : Finset ℕ} {d : ℕ → ℕ}
    {memory : ℕ} {x : OppCand} :
    x ∈ oppResults inputs oset d memory ↔
      ∃ i j, i < j ∧ j < inputs.length ∧
        ¬(memory < sizeSet (find_contraction [i, j] inputs oset).new_result d) ∧
        x = ⟨(-(sizeSet (find_contraction [i, j] inputs oset).idx_removed d : ℤ),
              (sizeSet (find_contraction [i, j] inputs oset).idx_contract d : ℤ)),
             (i, j), (find_contraction [i, j] inputs oset).remaining⟩ := by
  rw [oppResults, List.mem_filterMap]
  constructor
  · rintro ⟨con, hcon, hf⟩
    simp only at hf
    by_cases hm : memory < sizeSet (find_contraction [con.1, con.2] inputs oset).new_result d
    · rw [if_pos hm] at hf
      cases hf
    · rw [if_neg hm] at hf
      obtain ⟨hij, hk⟩ := mem_triuPairs.mp hcon
      exact ⟨con.1, con.2, hij, hk, hm, (Option.some_inj.mp hf).symm⟩
  · rintro ⟨i, j, hij, hk, hm, rfl⟩
    refine ⟨(i, j), mem_triuPairs.mpr ⟨hij, hk⟩, ?_⟩
    simp only
    rw [if_neg hm]

lemma oppSelect_eq_some {inputs : List (Finset ℕ)} {oset : Finset ℕ} {d : ℕ → ℕ}
    {memory : ℕ} {best : OppCand}
    (h : oppSelect inputs oset d memory = some best) :
    best ∈ oppResults inputs oset d memory ∧
      ∀ x ∈ oppResults inputs oset d memory, oppLt x best = false := by
  rw [oppSelect] at h
  rcases hr : oppResults inputs oset d memory with _ | ⟨c, cs⟩
  · rw [hr] at h
    cases h
  · rw [hr] at h
    have hbest : best = selectMin oppLt c cs := (Option.some_inj.mp h).symm
    constructor
    · rw [hbest]
      rcases selectMin_mem oppLt cs c with h2 | h2
      · rw [h2]
        exact List.mem_cons_self _ _
      · exact List.mem_cons_of_mem _ h2
    · intro x hx
      rw [hbest]
      refine selectMin_not_lt oppLt oppLt_irrefl oppLt_trans oppLt_conn cs c x ?_
      rcases List.mem_cons.mp hx with h2 | h2
      · exact Or.inl h2
      · exact Or.inr h2

/-- C4: whenever the opportunistic search commits a pair (at any state of its
remaining sequence, hence at every step of the search), the committed pair is
a memory-feasible pair whose key `(-removed_size, cost)` is lexicographically
minimal among all memory-feasible pairs of positions of the current
sequence: it maximizes the removed element volume and breaks ties by lowest
raw contraction cost. -/
theorem opportunistic_greedy_choice (input_sets : List (Finset ℕ))
    (output_set : Finset ℕ) (d : ℕ → ℕ) (memory : ℕ) (best : OppCand)
    (h : oppSelect input_sets output_set d memory = some best) :
    (best.pos.1 < best.pos.2 ∧ best.pos.2 < input_sets.length ∧
      sizeSet (find_contraction [best.pos.1, best.pos.2] input_sets
        output_set).new_result d ≤ memory ∧
      best.key =
        (-(sizeSet (find_contraction [best.pos.1, best.pos.2] input_sets
             output_set).idx_removed d : ℤ),
         (sizeSet (find_contraction [best.pos.1, best.pos.2] input_sets
             output_set).idx_contract d : ℤ)) ∧
      best.rem = (find_contraction [best.pos.1, best.pos.2] input_sets
        output_set).remaining) ∧
    (∀ i j, i < j → j < input_sets.length →
      sizeSet (find_contraction [i, j] input_sets output_set).new_result d ≤ memory →
      (best.key.1 <
          -(sizeSet (find_contraction [i, j] input_sets output_set).idx_removed d : ℤ) ∨
        (best.key.1 =
            -(sizeSet (find_contraction [i, j] input_sets output_set).idx_removed d : ℤ) ∧
          best.key.2 ≤
            (sizeSet (find_contraction [i, j] input_sets output_set).idx_contract d : ℤ)))) ∧
    (∀ t, oppGo output_set d memory (t + 1) input_sets =
      [best.pos.1, best.pos.2] :: oppGo output_set d memory t best.rem) := by
  obtain ⟨hmem, hmin⟩ := oppSelect_eq_some h
  refine ⟨?_, ?_, ?_⟩
  · obtain ⟨i, j, hij, hk, hm, rfl⟩ := mem_oppResults.mp hmem
    dsimp only
    exact ⟨hij, hk, by omega, rfl, rfl⟩
  · intro i j hij hk hfeas
    have hx : (⟨(-(sizeSet (find_contraction [i, j] input_sets output_set).idx_removed d : ℤ),
          (sizeSet (find_contraction [i, j] input_sets output_set).idx_contract d : ℤ)),
         (i, j), (find_contraction [i, j] input_sets output_set).remaining⟩ : OppCand) ∈
        oppResults input_sets output_set d memory :=
      mem_oppResults.mpr ⟨i, j, hij, hk, by omega, rfl⟩
    have hlt := hmin _ hx
    rw [oppLt] at hlt
    simp only [Bool.or_eq_false_iff, Bool.and_eq_false_iff, decide_eq_false_iff_not,
      beq_eq_false_iff_ne, ne_eq] at hlt
    obtain ⟨h1, h2⟩ := hlt
    rcases h2 with h2 | ⟨h2a, _⟩
    · omega
    · omega
  · intro t
    rw [oppGo, h]

/-- Witness for C4 at a concrete three-operand instance. -/
theorem opportunistic_greedy_choice_witness :
    oppSelect [{0, 1}, {1, 2}, {2, 3}] {0, 3} (fun i => [2, 3, 4, 5].getD i 1) 1000 =
      some ⟨(-4, 60), (1, 2), (find_contraction [1, 2] [{0, 1}, {1, 2}, {2, 3}] {0, 3}).remaining⟩ ∧
    (((⟨(-4, 60), (1, 2), (find_contraction [1, 2] [{0, 1}, {1, 2}, {2, 3}] {0, 3}).remaining⟩ : OppCand).pos.1 <
        (⟨(-4, 60), (1, 2), (find_contraction [1, 2] [{0, 1}, {1, 2}, {2, 3}] {0, 3}).remaining⟩ : OppCand).pos.2 ∧
      (⟨(-4, 60), (1, 2), (find_contraction [1, 2] [{0, 1}, {1, 2}, {2, 3}] {0, 3}).remaining⟩ : OppCand).pos.2 <
        ([{0, 1}, {1, 2}, {2, 3}] : List (Finset ℕ)).length ∧
      sizeSet (find_contraction [(⟨(-4, 60), (1, 2), (find_contraction [1, 2] [{0, 1}, {1, 2}, {2, 3}] {0, 3}).remaining⟩ : OppCand).pos.1,
          (⟨(-4, 60), (1, 2), (find_contraction [1, 2] [{0, 1}, {1, 2}, {2, 3}] {0, 3}).remaining⟩ : OppCand).pos.2]
          [{0, 1}, {1, 2}, {2, 3}] {0, 3}).new_result (fun i => [2, 3, 4, 5].getD i 1) ≤
        1000 ∧
      (⟨(-4, 60), (1, 2), (find_contraction [1, 2] [{0, 1}, {1, 2}, {2, 3}] {0, 3}).remaining⟩ : OppCand).key =
        (-(sizeSet (find_contraction [(⟨(-4, 60), (1, 2), (find_contraction [1, 2] [{0, 1}, {1, 2}, {2, 3}] {0, 3}).remaining⟩ : OppCand).pos.1,
              (⟨(-4, 60), (1, 2), (find_contraction [1, 2] [{0, 1}, {1, 2}, {2, 3}] {0, 3}).remaining⟩ : OppCand).pos.2]
              [{0, 1}, {1, 2}, {2, 3}] {0, 3}).idx_removed
            (fun i => [2, 3, 4, 5].getD i 1) : ℤ),
         (sizeSet (find_contraction [(⟨(-4, 60), (1, 2), (find_contraction [1, 2] [{0, 1}, {1, 2}, {2, 3}] {0, 3}).remaining⟩ : OppCand).pos.1,
              (⟨(-4, 60), (1, 2), (find_contraction [1, 2] [{0, 1}, {1, 2}, {2, 3}] {0, 3}).remaining⟩ : OppCand).pos.2]
              [{0, 1}, {1, 2}, {2, 3}] {0, 3}).idx_contract
            (fun i => [2, 3, 4, 5].getD i 1) : ℤ)) ∧
      (⟨(-4, 60), (1, 2), (find_contraction [1, 2] [{0, 1}, {1, 2}, {2, 3}] {0, 3}).remaining⟩ : OppCand).rem =
        (find_contraction [(⟨(-4, 60), (1, 2), (find_contraction [1, 2] [{0, 1}, {1, 2}, {2, 3}] {0, 3}).remaining⟩ : OppCand).pos.1,
          (⟨(-4, 60), (1, 2), (find_contraction [1, 2] [{0, 1}, {1, 2}, {2, 3}] {0, 3}).remaining⟩ : OppCand).pos.2]
          [{0, 1}, {1, 2}, {2, 3}] {0, 3}).remaining) ∧
    (∀ i j, i < j → j < ([{0, 1}, {1, 2}, {2, 3}] : List (Finset ℕ)).length →
      sizeSet (find_contraction [i, j] [{0, 1}, {1, 2}, {2, 3}] {0, 3}).new_result
          (fun i => [2, 3, 4, 5].getD i 1) ≤ 1000 →
      ((⟨(-4, 60), (1, 2), (find_contraction [1, 2] [{0, 1}, {1, 2}, {2, 3}] {0, 3}).remaining⟩ : OppCand).key.1 <
          -(sizeSet (find_contraction [i, j] [{0, 1}, {1, 2}, {2, 3}] {0, 3}).idx_removed
              (fun i => [2, 3, 4, 5].getD i 1) : ℤ) ∨
        ((⟨(-4, 60), (1, 2), (find_contraction [1, 2] [{0, 1}, {1, 2}, {2, 3}] {0, 3}).remaining⟩ : OppCand).key.1 =
            -(sizeSet (find_contraction [i, j] [{0, 1}, {1, 2}, {2, 3}] {0, 3}).idx_removed
                (fun i => [2, 3, 4, 5].getD i 1) : ℤ) ∧
          (⟨(-4, 60), (1, 2), (find_contraction [1, 2] [{0, 1}, {1, 2}, {2, 3}] {0, 3}).remaining⟩ : OppCand).key.2 ≤
            (sizeSet (find_contraction [i, j] [{0, 1}, {1, 2}, {2, 3}] {0, 3}).idx_contract
                (fun i => [2, 3, 4, 5].getD i 1) : ℤ)))) ∧
    (∀ t, oppGo {0, 3} (fun i => [2, 3, 4, 5].getD i 1) 1000 (t + 1)
        [{0, 1}, {1, 2}, {2, 3}] =
      [(⟨(-4, 60), (1, 2), (find_contraction [1, 2] [{0, 1}, {1, 2}, {2, 3}] {0, 3}).remaining⟩ : OppCand).pos.1,
        (⟨(-4, 60), (1, 2), (find_contraction [1, 2] [{0, 1}, {1, 2}, {2, 3}] {0, 3}).remaining⟩ : OppCand).pos.2] ::
        oppGo {0, 3} (fun i => [2, 3, 4, 5].getD i 1) 1000 t
          (⟨(-4, 60), (1, 2), (find_contraction [1, 2] [{0, 1}, {1, 2}, {2, 3}] {0, 3}).remaining⟩ : OppCand).rem)) :=
  ⟨by rfl,
    opportunistic_greedy_choice [{0, 1}, {1, 2}, {2, 3}] {0, 3}
      (fun i => [2, 3, 4, 5].getD i 1) 1000
      ⟨(-4, 60), (1, 2), (find_contraction [1, 2] [{0, 1}, {1, 2}, {2, 3}] {0, 3}).remaining⟩
      (by rfl)⟩

/-- Every step of a path is either memory-feasible (the surviving set of the
step fits in memory) or is the explicit whole-contraction fallback step for
its current remaining sequence. -/
def stepsFeasible (oset : Finset ℕ) (d : ℕ → ℕ) (memory : ℕ) :
    List (Finset ℕ) → List (List ℕ) → Prop
  | _, [] => True
  | rem, g :: gs =>
    (sizeSet (find_contraction g rem oset).new_result d ≤ memory ∨
      g = List.range rem.length) ∧
    stepsFeasible oset d memory (applyStep oset rem g) gs

lemma stepsFeasible_index {oset : Finset ℕ} {d : ℕ → ℕ} {memory : ℕ} :
    ∀ (p : List (List ℕ)) (rem : List (Finset ℕ)),
    stepsFeasible oset d memory rem p → ∀ i (hi : i < p.length),
      sizeSet (find_contraction p[i] (replayRem oset rem (p.take i))
        oset).new_result d ≤ memory ∨
      p[i] = List.range (replayRem oset rem (p.take i)).length := by
  intro p
  induction p with
  | nil => intro rem _ i hi; simp at hi
  | cons g gs ih =>
    intro rem h i hi
    rw [stepsFeasible] at h
    obtain ⟨h1, h2⟩ := h
    cases i with
    | zero =>
      simpa only [List.take_zero, replayRem_nil, List.getElem_cons_zero] using h1
    | succ n =>
      simp only [List.take_succ_cons, List.getElem_cons_succ, replayRem_cons]
      exact ih (applyStep oset rem g) h2 n (by simpa using hi)

lemma validSteps_stepsFeasible {oset : Finset ℕ} {d : ℕ → ℕ} {memory : ℕ} :
    ∀ (p : List (List ℕ)) (rem : List (Finset ℕ)),
    validSteps oset d memory rem p = true → stepsFeasible oset d memory rem p := by
  intro p
  induction p with
  | nil => intro rem _; trivial
  | cons g gs ih =>
    intro rem h
    rw [validSteps, Bool.and_eq_true] at h
    obtain ⟨h1, h2⟩ := h
    obtain ⟨i, j, rfl, _, _, hs⟩ := stepValid_shape h1
    exact ⟨Or.inl hs, ih _ h2⟩

lemma path_optimal_cases (inputs : List (Finset ℕ)) (oset : Finset ℕ) (d : ℕ → ℕ)
    (memory : ℕ) (hn : 2 ≤ inputs.length) :
    path_optimal inputs oset d memory = [List.range inputs.length] ∨
    (validSteps oset d memory inputs (path_optimal inputs oset d memory) = true ∧
      (path_optimal inputs oset d memory).length = inputs.length - 1) := by
  rcases hfm : optLevelsAux inputs oset d memory (inputs.length - 1) with _ | ⟨c, cs⟩
  · left
    rw [path_optimal, hfm]
  · right
    have hinv := optLevelsAux_mem inputs oset d memory (inputs.length - 1)
      (by omega)
    have hselmem : selectMin candLt c cs ∈
        optLevelsAux inputs oset d memory (inputs.length - 1) := by
      rw [hfm]
      rcases selectMin_mem candLt cs c with h | h
      · rw [h]
        exact List.mem_cons_self _ _
      · exact List.mem_cons_of_mem _ h
    obtain ⟨q, hqlen, hqval, hq⟩ := (hinv _).mp hselmem
    have hpath0 : path_optimal inputs oset d memory = (selectMin candLt c cs).pos := by
      rw [path_optimal, hfm]
    have hpath : path_optimal inputs oset d memory = q := by
      rw [hpath0, hq]
    rw [hpath]
    exact ⟨hqval, hqlen⟩

lemma oppGo_stepsFeasible {oset : Finset ℕ} {d : ℕ → ℕ} {memory : ℕ} :
    ∀ (fuel : ℕ) (inputs : List (Finset ℕ)),
    stepsFeasible oset d memory inputs (oppGo oset d memory fuel inputs) := by
  intro fuel
  induction fuel with
  | zero => intro inputs; rw [oppGo]; trivial
  | succ t ih =>
    intro inputs
    rcases hs : oppSelect inputs oset d memory with _ | best
    · rw [oppGo, hs, stepsFeasible]
      exact ⟨Or.inr rfl, trivial⟩
    · rw [oppGo, hs, stepsFeasible]
      obtain ⟨hmem, _⟩ := oppSelect_eq_some hs
      obtain ⟨i, j, hij, hk, hm, rfl⟩ := mem_oppResults.mp hmem
      dsimp only
      exact ⟨Or.inl (by omega), ih _⟩

/-- C3: every step of the path chosen by either strategy either satisfies the
memory bound (the surviving label set of the step has estimated size at most
the memory limit) or is the explicit fallback step contracting the whole
remaining sequence at once. -/
theorem memory_feasibility (inputs : List (Finset ℕ)) (output_set : Finset ℕ)
    (d : ℕ → ℕ) (memory : ℕ) (hn : 2 ≤ inputs.length) :
    (∀ i (hi : i < (path_optimal inputs output_set d memory).length),
      sizeSet (find_contraction ((path_optimal inputs output_set d memory)[i])
        (replayRem output_set inputs ((path_optimal inputs output_set d memory).take i))
        output_set).new_result d ≤ memory ∨
      (path_optimal inputs output_set d memory)[i] =
        List.range (replayRem output_set inputs
          ((path_optimal inputs output_set d memory).take i)).length) ∧
    (∀ i (hi : i < (path_opportunistic inputs output_set d memory).length),
      sizeSet (find_contraction ((path_opportunistic inputs output_set d memory)[i])
        (replayRem output_set inputs
          ((path_opportunistic inputs output_set d memory).take i))
        output_set).new_result d ≤ memory ∨
      (path_opportunistic inputs output_set d memory)[i] =
        List.range (replayRem output_set inputs
          ((path_opportunistic inputs output_set d memory).take i)).length) := by
  constructor
  · refine stepsFeasible_index _ _ ?_
    rcases path_optimal_cases inputs output_set d memory hn with h | ⟨h, _⟩
    · rw [h, stepsFeasible]
      exact ⟨Or.inr rfl, trivial⟩
    · exact validSteps_stepsFeasible _ _ h
  · exact stepsFeasible_index _ _ (oppGo_stepsFeasible _ _)

/-- Witness for C3 at a concrete two-operand instance. -/
theorem memory_feasibility_witness :
    2 ≤ ([{0, 1}, {1, 2}] : List (Finset ℕ)).length ∧
    ((∀ i (hi : i < (path_optimal [{0, 1}, {1, 2}] {0, 2} (fun _ => 2) 100).length),
      sizeSet (find_contraction ((path_optimal [{0, 1}, {1, 2}] {0, 2} (fun _ => 2) 100)[i])
        (replayRem {0, 2} [{0, 1}, {1, 2}]
          ((path_optimal [{0, 1}, {1, 2}] {0, 2} (fun _ => 2) 100).take i))
        {0, 2}).new_result (fun _ => 2) ≤ 100 ∨
      (path_optimal [{0, 1}, {1, 2}] {0, 2} (fun _ => 2) 100)[i] =
        List.range (replayRem {0, 2} [{0, 1}, {1, 2}]
          ((path_optimal [{0, 1}, {1, 2}] {0, 2} (fun _ => 2) 100).take i)).length) ∧
    (∀ i (hi : i < (path_opportunistic [{0, 1}, {1, 2}] {0, 2} (fun _ => 2) 100).length),
      sizeSet (find_contraction
        ((path_opportunistic [{0, 1}, {1, 2}] {0, 2} (fun _ => 2) 100)[i])
        (replayRem {0, 2} [{0, 1}, {1, 2}]
          ((path_opportunistic [{0, 1}, {1, 2}] {0, 2} (fun _ => 2) 100).take i))
        {0, 2}).new_result (fun _ => 2) ≤ 100 ∨
      (path_opportunistic [{0, 1}, {1, 2}] {0, 2} (fun _ => 2) 100)[i] =
        List.range (replayRem {0, 2} [{0, 1}, {1, 2}]
          ((path_opportunistic [{0, 1}, {1, 2}] {0, 2} (fun _ => 2) 100).take i)).length)) :=
  ⟨by decide, memory_feasibility [{0, 1}, {1, 2}] {0, 2} (fun _ => 2) 100 (by decide)⟩

lemma oppGo_blocked {oset : Finset ℕ} {d : ℕ → ℕ} {memory : ℕ} :
    ∀ (fuel : ℕ) (inputs : List (Finset ℕ)) (i : ℕ)
      (hi : i < (oppGo oset d memory fuel inputs).length),
    (∀ a b, a < b →
      b < (replayRem oset inputs
        ((oppGo oset d memory fuel inputs).take i)).length →
      memory < sizeSet (find_contraction [a, b]
        (replayRem oset inputs ((oppGo oset d memory fuel inputs).take i))
        oset).new_result d) →
    i + 1 = (oppGo oset d memory fuel inputs).length ∧
    (oppGo oset d memory fuel inputs)[i] =
      List.range (replayRem oset inputs
        ((oppGo oset d memory fuel inputs).take i)).length := by
  intro fuel
  induction fuel with
  | zero =>
    intro inputs i hi
    rw [oppGo] at hi
    simp at hi
  | succ t ih =>
    intro inputs i hi hblock
    rcases hs : oppSelect inputs oset d memory with _ | best
    · have hpath : oppGo oset d memory (t + 1) inputs = [List.range inputs.length] := by
        rw [oppGo, hs]
      simp only [hpath] at hi ⊢
      have hi0 : i = 0 := by simpa using hi
      subst hi0
      refine ⟨rfl, ?_⟩
      simp [replayRem_nil]
    · have hpath : oppGo oset d memory (t + 1) inputs =
          [best.pos.1, best.pos.2] :: oppGo oset d memory t best.rem := by
        rw [oppGo, hs]
      obtain ⟨hmem, _⟩ := oppSelect_eq_some hs
      obtain ⟨a0, b0, hab, hb, hm, hbest⟩ := mem_oppResults.mp hmem
      simp only [hpath] at hi hblock ⊢
      cases i with
      | zero =>
        exfalso
        simp only [List.take_zero, replayRem_nil] at hblock
        exact hm (hblock a0 b0 hab hb)
      | succ n =>
        simp only [hbest, List.take_succ_cons, replayRem_cons, List.getElem_cons_succ,
          List.length_cons] at hi hblock ⊢
        have happ : applyStep oset inputs [a0, b0] =
            (find_contraction [a0, b0] inputs oset).remaining := rfl
        simp only [happ] at hi hblock ⊢
        have hi2 : n < (oppGo oset d memory t
            (find_contraction [a0, b0] inputs oset).remaining).length := by omega
        obtain ⟨h1, h2⟩ := ih _ n hi2 hblock
        exact ⟨by omega, h2⟩

/-- C6: whenever every candidate pair at some step exceeds the memory limit,
both search strategies produce a path ending in a single fallback step that
contracts the entire current remaining sequence at once, returned as a normal
result: the optimal search returns the whole-contraction fallback path
exactly when every branch is pruned at some level, that is, when no
memory-feasible complete pairwise path exists; and if at any step of the
opportunistic run every pair of positions of the current remaining sequence
exceeds the memory limit, then that step is the last step of the path and
contracts the entire current remaining sequence at once. -/
theorem fallback_when_infeasible (inputs : List (Finset ℕ)) (output_set : Finset ℕ)
    (d : ℕ → ℕ) (memory : ℕ) (hn : 2 ≤ inputs.length) :
    ((∀ p, ¬(p.length = inputs.length - 1 ∧
        validSteps output_set d memory inputs p = true)) →
      path_optimal inputs output_set d memory = [List.range inputs.length]) ∧
    (∀ i (hi : i < (path_opportunistic inputs output_set d memory).length),
      (∀ a b, a < b →
        b < (replayRem output_set inputs
          ((path_opportunistic inputs output_set d memory).take i)).length →
        memory < sizeSet (find_contraction [a, b]
          (replayRem output_set inputs
            ((path_opportunistic inputs output_set d memory).take i))
          output_set).new_result d) →
      i + 1 = (path_opportunistic inputs output_set d memory).length ∧
      (path_opportunistic inputs output_set d memory)[i] =
        List.range (replayRem output_set inputs
          ((path_opportunistic inputs output_set d memory).take i)).length) := by
  constructor
  · intro hnofeas
    rcases path_optimal_cases inputs output_set d memory hn with h | ⟨hval, hlen⟩
    · exact h
    · exact absurd ⟨hlen, hval⟩ (hnofeas _)
  · intro i hi hblock
    exact oppGo_blocked (inputs.length - 1) inputs i hi hblock

/-- Witness for C6 at three scalar-like operands sharing no label, where the
first level is feasible and blockage occurs at the second step. -/
theorem fallback_when_infeasible_witness :
    2 ≤ ([{0}, {1}, {2}] : List (Finset ℕ)).length ∧
    (((∀ p, ¬(p.length = ([{0}, {1}, {2}] : List (Finset ℕ)).length - 1 ∧
        validSteps {0, 1, 2} (fun _ => 2) 4 [{0}, {1}, {2}] p = true)) →
      path_optimal [{0}, {1}, {2}] {0, 1, 2} (fun _ => 2) 4 =
        [List.range ([{0}, {1}, {2}] : List (Finset ℕ)).length]) ∧
    (∀ i (hi : i < (path_opportunistic [{0}, {1}, {2}] {0, 1, 2}
        (fun _ => 2) 4).length),
      (∀ a b, a < b →
        b < (replayRem {0, 1, 2} [{0}, {1}, {2}]
          ((path_opportunistic [{0}, {1}, {2}] {0, 1, 2}
            (fun _ => 2) 4).take i)).length →
        4 < sizeSet (find_contraction [a, b]
          (replayRem {0, 1, 2} [{0}, {1}, {2}]
            ((path_opportunistic [{0}, {1}, {2}] {0, 1, 2}
              (fun _ => 2) 4).take i))
          {0, 1, 2}).new_result (fun _ => 2)) →
      i + 1 = (path_opportunistic [{0}, {1}, {2}] {0, 1, 2}
        (fun _ => 2) 4).length ∧
      (path_opportunistic [{0}, {1}, {2}] {0, 1, 2} (fun _ => 2) 4)[i] =
        List.range (replayRem {0, 1, 2} [{0}, {1}, {2}]
          ((path_opportunistic [{0}, {1}, {2}] {0, 1, 2}
            (fun _ => 2) 4).take i)).length)) :=
  ⟨by decide,
    fallback_when_infeasible [{0}, {1}, {2}] {0, 1, 2} (fun _ => 2) 4 (by decide)⟩

/-- C7 counterexample: with two operands, a strategy name the engine does not
implement is silently ignored: the dispatch returns the trivial pair path
instead of failing, because the one- and two-operand shortcuts are checked
before the strategy name. -/
theorem contract_unknown_strategy_two_operands_ok :
    computePath (PathArg.name ("bogus")) [[0], [1]] [0, 1] (fun _ => 2) 100 =
      Except.ok [Sum.inr [0, 1]] ∧
    ∀ e, computePath (PathArg.name ("bogus")) [[0], [1]] [0, 1] (fun _ => 2) 100 ≠
      Except.error e := by
  refine ⟨rfl, ?_⟩
  intro e he
  rw [show computePath (PathArg.name ("bogus")) [[0], [1]] [0, 1] (fun _ => 2) 100 =
    Except.ok [Sum.inr [0, 1]] from rfl] at he
  exact Except.noConfusion he

/-- C7 amended: with at least three operands and no explicit path, a strategy
name other than `opportunistic` or `optimal` fails fast with a KeyError; with
one or two operands the strategy name is never examined and a trivial path is
returned instead. -/
theorem contract_unknown_strategy (s : String) (terms : List (List ℕ))
    (out : List ℕ) (d : ℕ → ℕ) (memory : ℕ)
    (h3 : 3 ≤ terms.length) (hs1 : s ≠ "opportunistic") (hs2 : s ≠ "optimal") :
    computePath (PathArg.name s) terms out d memory =
      Except.error ("KeyError: Path name not found") := by
  rw [computePath]
  have h1 : ¬(terms.length = 1) := by omega
  have h2 : ¬(terms.length = 2) := by omega
  simp only [if_neg h1, if_neg h2, if_neg hs1, if_neg hs2]

/-- Witness for the amended C7 at a concrete three-operand call. -/
theorem contract_unknown_strategy_witness :
    3 ≤ ([[0], [1], [2]] : List (List ℕ)).length ∧
    "bogus" ≠ "opportunistic" ∧ "bogus" ≠ "optimal" ∧
    computePath (PathArg.name ("bogus")) [[0], [1], [2]] [0, 1, 2] (fun _ => 2) 100 =
      Except.error ("KeyError: Path name not found") :=
  ⟨by decide, by decide, by decide,
    contract_unknown_strategy "bogus" [[0], [1], [2]] [0, 1, 2] (fun _ => 2) 100
      (by decide) (by decide) (by decide)⟩

/-- C9 counterexample: for one operand with labels already equal to the
output, the computed path is the single malformed entry `0` (the source
builds `[(0)]`, a list holding the integer zero rather than a one-element
tuple), not a zero-step path; materialization then fails with a type error
instead of emitting an empty instruction sequence. -/
theorem contract_single_operand_crashes :
    computePath (PathArg.name ("opportunistic")) [[0, 1]] [0, 1] (fun _ => 2) 100 =
      Except.ok [Sum.inl 0] ∧
    ([Sum.inl 0] : List PyGroup) ≠ [] ∧
    contract (PathArg.name ("opportunistic")) [[0, 1]] [0, 1] (fun _ => 2) 100 =
      Except.error ("TypeError: int object is not iterable") :=
  ⟨rfl, by simp, rfl⟩

/-- C9 amended: every single-operand call that selects a path by strategy
name computes the path `[0]` with one malformed entry (the integer zero), and
materialization always fails with a type error; no instruction sequence and
no identity result is ever produced. -/
theorem contract_single_operand (s : String) (term : List ℕ) (out : List ℕ)
    (d : ℕ → ℕ) (memory : ℕ) :
    computePath (PathArg.name s) [term] out d memory = Except.ok [Sum.inl 0] ∧
    contract (PathArg.name s) [term] out d memory =
      Except.error ("TypeError: int object is not iterable") :=
  ⟨rfl, rfl⟩

lemma popAt_succeeds {α : Type} : ∀ (l : List α) (i : ℕ), i < l.length →
    ∃ x rest, popAt l i = some (x, rest) ∧ rest.length + 1 = l.length := by
  intro l
  induction l with
  | nil => intro i hi; simp at hi
  | cons a as ih =>
    intro i hi
    cases i with
    | zero => exact ⟨a, as, rfl, by simp⟩
    | succ n =>
      obtain ⟨x, rest, hx, hlen⟩ := ih n (by simpa using hi)
      refine ⟨x, a :: rest, ?_, by simp [← hlen]⟩
      rw [popAt, hx]
      rfl

lemma popMany_succeeds : ∀ (is : List ℕ) (l : List (List ℕ)),
    List.Pairwise (· > ·) is → (∀ i ∈ is, i < l.length) →
    ∃ tmp rest, popMany l is = some (tmp, rest) ∧
      rest.length + is.length = l.length ∧ tmp.length = is.length := by
  intro is
  induction is with
  | nil => intro l _ _; exact ⟨[], l, rfl, by simp, rfl⟩
  | cons i tl ih =>
    intro l hp hb
    obtain ⟨x, rest, hx, hlen⟩ := popAt_succeeds l i (hb i (List.mem_cons_self _ _))
    rw [List.pairwise_cons] at hp
    obtain ⟨hgt, hp2⟩ := hp
    have hb2 : ∀ j ∈ tl, j < rest.length := by
      intro j hj
      have h1 : j < i := hgt j hj
      have h2 : i < l.length := hb i (List.mem_cons_self _ _)
      omega
    obtain ⟨tmp2, rest2, h2, hlen2, htmp2⟩ := ih rest hp2 hb2
    refine ⟨x :: tmp2, rest2, ?_, by simp only [List.length_cons]; omega,
      by simp only [List.length_cons, htmp2]⟩
    rw [popMany, hx]
    dsimp only
    rw [h2]
    rfl

lemma sortDesc_perm (g : List ℕ) : (sortDesc g).Perm g :=
  List.perm_insertionSort _ g

lemma sortDesc_pairwise_gt {g : List ℕ} (hnd : g.Nodup) :
    List.Pairwise (· > ·) (sortDesc g) := by
  have hnd2 : (sortDesc g).Nodup := (sortDesc_perm g).nodup_iff.mpr hnd
  have hs : List.Pairwise (fun a b => b ≤ a) (sortDesc g) :=
    List.sorted_insertionSort _ g
  refine (hnd2.and hs).imp ?_
  rintro a b ⟨hne, hle⟩
  omega

lemma filter_not_mem_length : ∀ (pos : List ℕ) (n : ℕ), pos.Nodup →
    (∀ i ∈ pos, i < n) →
    ((List.range n).filter (fun x => decide (x ∉ pos))).length + pos.length = n := by
  intro pos
  induction pos with
  | nil =>
    intro n _ _
    have h : (List.range n).filter (fun x => decide (x ∉ ([] : List ℕ))) =
        List.range n := by
      refine List.filter_eq_self.mpr ?_
      intro x _
      simp
    rw [h]
    simp
  | cons i tl ih =>
    intro n hnd hb
    rw [List.nodup_cons] at hnd
    obtain ⟨hni, hnd2⟩ := hnd
    have hsplit : (List.range n).filter (fun x => decide (x ∉ (i :: tl))) =
        ((List.range n).filter (fun x => decide (x ∉ tl))).filter (fun x => x ≠ i) := by
      rw [List.filter_filter]
      refine List.filter_congr ?_
      intro x _
      by_cases h1 : x = i <;> by_cases h2 : x ∈ tl <;> simp [h1, h2]
    have hnd3 : ((List.range n).filter (fun x => decide (x ∉ tl))).Nodup :=
      (List.nodup_range n).filter _
    have hmem : i ∈ (List.range n).filter (fun x => decide (x ∉ tl)) := by
      rw [List.mem_filter, List.mem_range]
      exact ⟨hb i (List.mem_cons_self _ _), by simpa using hni⟩
    have herase : ((List.range n).filter (fun x => decide (x ∉ tl))).filter
        (fun x => x ≠ i) = ((List.range n).filter (fun x => decide (x ∉ tl))).erase i := by
      rw [hnd3.erase_eq_filter]
      refine List.filter_congr ?_
      intro x _
      by_cases h : x = i <;> simp [h]
    rw [hsplit, herase, List.length_erase_of_mem hmem, List.length_cons]
    have := ih n hnd2 (fun j hj => hb j (List.mem_cons_of_mem _ hj))
    have hpos : 0 < ((List.range n).filter (fun x => decide (x ∉ tl))).length := by
      exact List.length_pos_of_mem hmem
    omega

lemma nonSel_length_general {positions : List ℕ} {l : List (Finset ℕ)}
    (hnd : positions.Nodup) (hb : ∀ i ∈ positions, i < l.length) :
    (nonSel positions l).length + positions.length = l.length := by
  rw [nonSel_length]
  exact filter_not_mem_length positions l.length hnd hb

lemma matGo_ok (out : List ℕ) (oset : Finset ℕ) (d : ℕ → ℕ) :
    ∀ (path : List PyGroup) (terms : List (List ℕ)) (sets : List (Finset ℕ)),
    groupsOk path terms.length = true → terms.length = sets.length →
    ∃ l, matGo out oset d path terms sets = Except.ok l ∧ l.length = path.length := by
  intro path
  induction path with
  | nil => intro terms sets _ _; exact ⟨[], rfl, rfl⟩
  | cons g gs ih =>
    intro terms sets hok hlen
    cases g with
    | inl n => simp [groupsOk] at hok
    | inr gl =>
      rw [groupsOk, Bool.and_eq_true, Bool.and_eq_true] at hok
      obtain ⟨⟨hnd, hball⟩, hrest⟩ := hok
      have hnd' : gl.Nodup := by simpa using hnd
      have hball' : ∀ i ∈ gl, i < terms.length := by
        intro i hi
        have := List.all_eq_true.mp hball i hi
        simpa using this
      have hbs : ∀ i ∈ sortDesc gl, i < terms.length := by
        intro i hi
        exact hball' i ((sortDesc_perm gl).subset hi)
      obtain ⟨tmp, rest, hpop, hplen, htmp⟩ :=
        popMany_succeeds (sortDesc gl) terms (sortDesc_pairwise_gt hnd') hbs
      have hsdlen : (sortDesc gl).length = gl.length := (sortDesc_perm gl).length_eq
      have hndS : (sortDesc gl).Nodup := (sortDesc_perm gl).nodup_iff.mpr hnd'
      have hbsets : ∀ i ∈ sortDesc gl, i < sets.length := by
        intro i hi
        have := hbs i hi
        omega
      have hremlen : ((find_contraction (sortDesc gl) sets oset).remaining).length +
          gl.length = sets.length + 1 := by
        rw [fc_remaining, List.length_append, List.length_cons, List.length_nil]
        have := nonSel_length_general hndS hbsets
        omega
      set idx_result := if gs.isEmpty then out else
        sortByKey d (find_contraction (sortDesc gl) sets oset).new_result with hidx
      have hlen2 : (rest ++ [idx_result]).length =
          ((find_contraction (sortDesc gl) sets oset).remaining).length := by
        rw [List.length_append, List.length_cons, List.length_nil]
        omega
      have hok2 : groupsOk gs (rest ++ [idx_result]).length = true := by
        rw [List.length_append, List.length_cons, List.length_nil]
        have : rest.length + 1 = terms.length - gl.length + 1 := by omega
        rw [this]
        exact hrest
      obtain ⟨l2, hl2, hlen3⟩ := ih (rest ++ [idx_result])
        (find_contraction (sortDesc gl) sets oset).remaining hok2 hlen2
      refine ⟨⟨sortDesc gl, tmp, idx_result, rest ++ [idx_result]⟩ :: l2, ?_,
        by simp only [List.length_cons, hlen3]⟩
      rw [matGo, hpop]
      dsimp only
      rw [← hidx, hl2]

/-- C8 counterexample: a malformed explicit path (three operands, only one
step, final surviving sequence not reduced to the output set) is materialized
fully and successfully, with an instruction emitted and no validation
failure. -/
theorem contract_malformed_path_not_detected :
    contract (PathArg.explicitPath [Sum.inr [0, 1]]) [[0], [1], [2]] [0, 1, 2]
        (fun _ => 2) 100 =
      Except.ok [⟨[1, 0], [[1], [0]], [0, 1, 2], [[2], [0, 1, 2]]⟩] ∧
    ([Sum.inr [0, 1]] : List PyGroup).length ≠
      ([[0], [1], [2]] : List (List ℕ)).length - 1 ∧
    (replayRem (List.toFinset [0, 1, 2])
      (([[0], [1], [2]] : List (List ℕ)).map List.toFinset) [[0, 1]]).length ≠ 1 :=
  ⟨rfl, by decide, by decide⟩

/-- C8 amended: materialization performs no validation of a caller-supplied
explicit path: whenever every group is a tuple of distinct in-range positions
for the evolving operand list, materialization succeeds and emits one
instruction per step regardless of the step count or of whether the final
surviving set equals the output set; an out-of-range position surfaces only
as a positional-removal error at the offending step, after earlier
instructions were already built. -/
theorem contract_explicit_path_no_validation (path : List PyGroup)
    (terms : List (List ℕ)) (out : List ℕ) (d : ℕ → ℕ) (memory : ℕ)
    (hok : groupsOk path terms.length = true) :
    ∃ l, contract (PathArg.explicitPath path) terms out d memory = Except.ok l ∧
      l.length = path.length := by
  have h := matGo_ok out out.toFinset d path terms (terms.map List.toFinset) hok
    (by rw [List.length_map])
  rw [contract, computePath]
  exact h

/-- Witness for the amended C8 at the malformed one-step path over three
operands. -/
theorem contract_explicit_path_no_validation_witness :
    groupsOk [Sum.inr [0, 1]] ([[0], [1], [2]] : List (List ℕ)).length = true ∧
    ∃ l, contract (PathArg.explicitPath [Sum.inr [0, 1]]) [[0], [1], [2]] [0, 1, 2]
        (fun _ => 2) 100 = Except.ok l ∧
      l.length = ([Sum.inr [0, 1]] : List PyGroup).length :=
  ⟨by decide,
    contract_explicit_path_no_validation [Sum.inr [0, 1]] [[0], [1], [2]] [0, 1, 2]
      (fun _ => 2) 100 (by decide)⟩

/-- Structure of the paths that the two search strategies emit: every step is
either a valid position pair, or the final whole-contraction fallback; the
path ends with a single descriptor remaining. -/
def goodPath (oset : Finset ℕ) : List (Finset ℕ) → List (List ℕ) → Prop
  | rem, [] => rem.length = 1
  | rem, g :: gs =>
    ((∃ i j, i < j ∧ j < rem.length ∧ g = [i, j]) ∨
      (g = List.range rem.length ∧ gs = [] ∧ 2 ≤ rem.length)) ∧
    goodPath oset (applyStep oset rem g) gs

lemma mem_unionF_enumFrom {l : List (Finset ℕ)} : ∀ (k x : ℕ),
    (∃ p ∈ l.enumFrom k, x ∈ p.2) ↔ x ∈ unionF l := by
  induction l with
  | nil => intro k x; simp [unionF]
  | cons v rest ih =>
    intro k x
    rw [List.enumFrom_cons,
      show unionF (v :: rest) = v ∪ unionF rest from rfl, Finset.mem_union, ← ih (k + 1)]
    constructor
    · rintro ⟨p, hp, hx⟩
      rcases List.mem_cons.mp hp with rfl | hp
      · exact Or.inl hx
      · exact Or.inr ⟨p, hp, hx⟩
    · rintro (hx | ⟨p, hp, hx⟩)
      · exact ⟨(k, v), List.mem_cons_self _ _, hx⟩
      · exact ⟨p, List.mem_cons_of_mem _ hp, hx⟩

lemma applyStep_output_subset {oset : Finset ℕ} {rem : List (Finset ℕ)} {g : List ℕ}
    (h : oset ⊆ unionF rem) : oset ⊆ unionF (applyStep oset rem g) := by
  intro x hx
  have hx2 : x ∈ unionF rem := h hx
  rw [applyStep, fc_remaining]
  by_cases hn : ∃ p ∈ rem.enum, p.1 ∉ g ∧ x ∈ p.2
  · have hx3 : x ∈ unionF (nonSel g rem) := mem_unionF_nonSel.mpr hn
    obtain ⟨s, hs, hxs⟩ := mem_unionF.mp hx3
    exact mem_unionF.mpr ⟨s, List.mem_append_left _ hs, hxs⟩
  · push_neg at hn
    obtain ⟨p, hp, hxp⟩ := (mem_unionF_enumFrom 0 x).mpr hx2
    have hp2 : p ∈ rem.enum := by
      rw [enum_eq_enumFrom]
      exact hp
    by_cases hpg : p.1 ∈ g
    · have hsel : x ∈ (fcScan g 0 rem).1 :=
        (mem_fcScan_sel 0 x).mpr ⟨p, hp, hpg, hxp⟩
      have hnr : x ∈ (find_contraction g rem oset).new_result :=
        mem_fc_new_result.mpr ⟨Or.inl hx, hsel⟩
      exact mem_unionF.mpr ⟨(find_contraction g rem oset).new_result,
        List.mem_append_right _ (List.mem_singleton.mpr rfl), hnr⟩
    · exact absurd hxp (hn p hp2 hpg)

lemma enumFrom_fst_lt {α : Type} (l : List α) : ∀ (k : ℕ) (p : ℕ × α),
    p ∈ l.enumFrom k → p.1 < k + l.length := by
  induction l with
  | nil => intro k p hp; simp at hp
  | cons a as ih =>
    intro k p hp
    rw [List.enumFrom_cons] at hp
    rcases List.mem_cons.mp hp with rfl | hp
    · simp
    · have := ih (k + 1) p hp
      simp only [List.length_cons]
      omega

lemma nonSel_all_selected {g : List ℕ} {rem : List (Finset ℕ)}
    (hall : ∀ k, k < rem.length → k ∈ g) : nonSel g rem = [] := by
  rw [nonSel, List.map_eq_nil_iff, List.filter_eq_nil_iff]
  rintro ⟨k, s⟩ hp
  have hk : k < rem.length := by
    have := enumFrom_fst_lt rem 0 (k, s) hp
    simpa using this
  simp [hall k hk]

lemma applyStep_all_selected {oset : Finset ℕ} {rem : List (Finset ℕ)} {g : List ℕ}
    (hall : ∀ k, k < rem.length → k ∈ g) (hsub : oset ⊆ unionF rem) :
    applyStep oset rem g = [oset] := by
  have hnonsel : nonSel g rem = [] := nonSel_all_selected hall
  have hsel : selSets g rem = rem := by
    rw [selSets]
    have hfilter : (rem.enum.filter (fun p => decide (p.1 ∈ g))) = rem.enum := by
      refine List.filter_eq_self.mpr ?_
      rintro ⟨k, s⟩ hp
      have hk : k < rem.length := by
        have := enumFrom_fst_lt rem 0 (k, s) hp
        simpa using this
      simp [hall k hk]
    rw [hfilter, List.enum_map_snd]
  have hnr : (find_contraction g rem oset).new_result = oset := by
    rw [fc_new_result, fc_idx_contract, hsel, hnonsel]
    rw [show unionF ([] : List (Finset ℕ)) = ∅ from rfl, Finset.union_empty]
    exact Finset.inter_eq_left.mpr hsub
  rw [applyStep, fc_remaining, hnonsel, hnr, List.nil_append]

lemma goodPath_replay {oset : Finset ℕ} : ∀ (p : List (List ℕ)) (rem : List (Finset ℕ)),
    goodPath oset rem p → oset ⊆ unionF rem → 1 ≤ p.length →
    replayRem oset rem p = [oset] := by
  intro p
  induction p with
  | nil => intro rem _ _ h1; simp at h1
  | cons g gs ih =>
    intro rem hgp hsub _
    rw [goodPath] at hgp
    obtain ⟨hstep, hrest⟩ := hgp
    cases gs with
    | nil =>
      rw [goodPath] at hrest
      rcases hstep with ⟨i, j, hij, hj, rfl⟩ | ⟨rfl, _, hge2⟩
      · have hlen := applyStep_length_pair oset hij hj
        have h2 : rem.length = 2 := by omega
        have hall : ∀ k, k < rem.length → k ∈ ([i, j] : List ℕ) := by
          intro k hk
          rw [h2] at hk
          have hi0 : i = 0 := by omega
          have hj1 : j = 1 := by omega
          rw [hi0, hj1]
          have hk2 : k = 0 ∨ k = 1 := by omega
          rcases hk2 with rfl | rfl <;> simp
        rw [replayRem_cons, replayRem_nil, applyStep_all_selected hall hsub]
      · have hall : ∀ k, k < rem.length → k ∈ List.range rem.length := fun k hk =>
          List.mem_range.mpr hk
        rw [replayRem_cons, replayRem_nil, applyStep_all_selected hall hsub]
    | cons g2 gs2 =>
      rw [replayRem_cons]
      exact ih _ hrest (applyStep_output_subset hsub) (by simp)

lemma fcScan_congr {p1 p2 : List ℕ} (h : ∀ i, i ∈ p1 ↔ i ∈ p2)
    (l : List (Finset ℕ)) : ∀ k, fcScan p1 k l = fcScan p2 k l := by
  induction l with
  | nil => intro k; rfl
  | cons v rest ih =>
    intro k
    by_cases hk : k ∈ p1
    · rw [fcScan_cons_pos hk, fcScan_cons_pos ((h k).mp hk), ih (k + 1)]
    · rw [fcScan_cons_neg hk, fcScan_cons_neg (fun hc => hk ((h k).mpr hc)), ih (k + 1)]

lemma find_contraction_congr {p1 p2 : List ℕ} (h : ∀ i, i ∈ p1 ↔ i ∈ p2)
    (l : List (Finset ℕ)) (oset : Finset ℕ) :
    find_contraction p1 l oset = find_contraction p2 l oset := by
  rw [find_contraction, find_contraction, fcScan_congr h l 0]

lemma find_contraction_sortDesc (g : List ℕ) (l : List (Finset ℕ)) (oset : Finset ℕ) :
    find_contraction (sortDesc g) l oset = find_contraction g l oset :=
  find_contraction_congr (fun _ => (sortDesc_perm g).mem_iff) l oset

lemma validSteps_goodPath {oset : Finset ℕ} {d : ℕ → ℕ} {memory : ℕ} :
    ∀ (p : List (List ℕ)) (rem : List (Finset ℕ)),
    validSteps oset d memory rem p = true → rem.length = p.length + 1 →
    goodPath oset rem p := by
  intro p
  induction p with
  | nil => intro rem _ hlen; rw [goodPath]; simpa using hlen
  | cons g gs ih =>
    intro rem hval hlen
    rw [validSteps, Bool.and_eq_true] at hval
    obtain ⟨h1, h2⟩ := hval
    obtain ⟨i, j, rfl, hij, hj, _⟩ := stepValid_shape h1
    rw [goodPath]
    refine ⟨Or.inl ⟨i, j, hij, hj, rfl⟩, ?_⟩
    refine ih _ h2 ?_
    have := applyStep_length_pair oset hij hj
    simp only [List.length_cons] at hlen
    omega

lemma goodPath_fallback {oset : Finset ℕ} {rem : List (Finset ℕ)}
    (h2 : 2 ≤ rem.length) : goodPath oset rem [List.range rem.length] := by
  rw [goodPath]
  refine ⟨Or.inr ⟨rfl, rfl, h2⟩, ?_⟩
  rw [goodPath, applyStep, fc_remaining,
    nonSel_all_selected (fun k hk => List.mem_range.mpr hk)]
  rfl

lemma oppGo_goodPath (oset : Finset ℕ) (d : ℕ → ℕ) (memory : ℕ) :
    ∀ (fuel : ℕ) (inputs : List (Finset ℕ)), inputs.length = fuel + 1 →
    goodPath oset inputs (oppGo oset d memory fuel inputs) := by
  intro fuel
  induction fuel with
  | zero =>
    intro inputs hlen
    rw [oppGo, goodPath]
    exact hlen
  | succ t ih =>
    intro inputs hlen
    rcases hs : oppSelect inputs oset d memory with _ | best
    · rw [oppGo, hs]
      exact goodPath_fallback (by omega)
    · rw [oppGo, hs]
      obtain ⟨hmem, _⟩ := oppSelect_eq_some hs
      obtain ⟨i, j, hij, hj, _, rfl⟩ := mem_oppResults.mp hmem
      rw [goodPath]
      dsimp only
      refine ⟨Or.inl ⟨i, j, hij, hj, rfl⟩, ?_⟩
      refine ih _ ?_
      have h1 := applyStep_length_pair oset hij hj
      have h2 : (applyStep oset inputs [i, j]).length =
          (find_contraction [i, j] inputs oset).remaining.length := rfl
      omega

lemma sortByKey_sorted (d : ℕ → ℕ) (s : Finset ℕ) :
    List.Sorted (sizeRel d) (sortByKey d s) :=
  List.sorted_insertionSort _ _

lemma matGo_strategy (out : List ℕ) (oset : Finset ℕ) (d : ℕ → ℕ) :
    ∀ (q : List (List ℕ)) (terms : List (List ℕ)) (sets : List (Finset ℕ)),
    goodPath oset sets q → terms.length = sets.length → q ≠ [] →
    ∃ l, matGo out oset d (q.map Sum.inr) terms sets = Except.ok l ∧
      l.length = q.length ∧
      (∃ lastI, l.getLast? = some lastI ∧ lastI.idx_result = out ∧
        lastI.remaining = [out]) ∧
      ∀ ins ∈ l.dropLast, List.Sorted (sizeRel d) ins.idx_result := by
  intro q
  induction q with
  | nil => intro _ _ _ _ h; exact absurd rfl h
  | cons g gs ih =>
    intro terms sets hgp hlen _
    rw [goodPath] at hgp
    obtain ⟨hstep, hrest⟩ := hgp
    have hshape : g.Nodup ∧ (∀ k ∈ g, k < sets.length) := by
      rcases hstep with ⟨i, j, hij, hj, rfl⟩ | ⟨rfl, _, _⟩
      · refine ⟨by simp; omega, ?_⟩
        intro k hk
        rcases List.mem_cons.mp hk with rfl | hk
        · omega
        · rcases List.mem_singleton.mp hk with rfl
          exact hj
      · exact ⟨List.nodup_range _, fun k hk => List.mem_range.mp hk⟩
    obtain ⟨tmp, rest, hpop, hplen, htmp⟩ := popMany_succeeds (sortDesc g) terms
      (sortDesc_pairwise_gt hshape.1)
      (fun i hi => by
        have := hshape.2 i ((sortDesc_perm g).subset hi)
        omega)
    have hsdlen : (sortDesc g).length = g.length := (sortDesc_perm g).length_eq
    cases gs with
    | nil =>
      have hrlen1 : (applyStep oset sets g).length = 1 := by
        rw [goodPath] at hrest
        exact hrest
      have hgset : g.length = sets.length := by
        rcases hstep with ⟨i, j, hij, hj, rfl⟩ | ⟨rfl, _, _⟩
        · have h1 := applyStep_length_pair oset hij hj
          simp only [List.length_cons, List.length_nil]
          omega
        · rw [List.length_range]
      have hrest0 : rest = [] := by
        rw [← List.length_eq_zero]
        omega
      subst hrest0
      refine ⟨[⟨sortDesc g, tmp, out, [out]⟩], ?_, rfl, ⟨_, rfl, rfl, rfl⟩, by simp⟩
      rw [List.map_cons, List.map_nil, matGo, hpop]
      dsimp only
      rfl
    | cons g2 gs2 =>
      have hpair : ∃ i j, i < j ∧ j < sets.length ∧ g = [i, j] := by
        rcases hstep with h | ⟨_, hnil, _⟩
        · exact h
        · cases hnil
      obtain ⟨i, j, hij, hj, rfl⟩ := hpair
      have hstepl := applyStep_length_pair oset hij hj
      set idx := sortByKey d (find_contraction (sortDesc [i, j]) sets oset).new_result
        with hidx
      have hlen2 : (rest ++ [idx]).length = (applyStep oset sets [i, j]).length := by
        rw [List.length_append, List.length_cons, List.length_nil]
        simp only [List.length_cons, List.length_nil] at hplen hsdlen
        omega
      have happly : (find_contraction (sortDesc [i, j]) sets oset).remaining =
          applyStep oset sets [i, j] := by
        rw [applyStep, find_contraction_sortDesc]
      obtain ⟨l2, hl2, hlen3, hlast, hsorted⟩ :=
        ih (rest ++ [idx]) (applyStep oset sets [i, j]) hrest hlen2 (by simp)
      refine ⟨⟨sortDesc [i, j], tmp, idx, rest ++ [idx]⟩ :: l2, ?_, by simp [hlen3], ?_, ?_⟩
      · rw [List.map_cons, matGo, hpop]
        dsimp only
        rw [show (List.map Sum.inr (g2 :: gs2)).isEmpty = false from rfl,
          if_neg (by simp : ¬(false = true))]
        rw [← hidx, happly, hl2]
      · obtain ⟨lastI, hl, h1, h2⟩ := hlast
        refine ⟨lastI, ?_, h1, h2⟩
        have hne : l2 ≠ [] := by
          intro hc
          rw [hc] at hlen3
          simp at hlen3
        rw [List.getLast?_cons, hl]
        rcases l2 with _ | ⟨a, l3⟩
        · exact absurd rfl hne
        · rfl
      · intro ins hins
        have hne : l2 ≠ [] := by
          intro hc
          rw [hc] at hlen3
          simp at hlen3
        rw [List.dropLast_cons_of_ne_nil hne] at hins
        rcases List.mem_cons.mp hins with rfl | hins
        · exact sortByKey_sorted d _
        · exact hsorted ins hins

/-- C5: for both search strategies, replaying the returned path reduces the
remaining sequence to the single descriptor equal to the output set exactly;
materialization of the path succeeds with one instruction per step, the last
instruction carries the result in exactly the declared output order (and its
remaining snapshot is exactly the output term), and every earlier
instruction's result is ordered by ascending label size, then by label
identity. -/
theorem strategies_reach_output (terms : List (List ℕ)) (out : List ℕ)
    (d : ℕ → ℕ) (memory : ℕ)
    (hn : 2 ≤ terms.length)
    (hsub : out.toFinset ⊆ unionF (terms.map List.toFinset)) :
    ∀ q ∈ [path_optimal (terms.map List.toFinset) out.toFinset d memory,
           path_opportunistic (terms.map List.toFinset) out.toFinset d memory],
      replayRem out.toFinset (terms.map List.toFinset) q = [out.toFinset] ∧
      ∃ l, matGo out out.toFinset d (q.map Sum.inr) terms (terms.map List.toFinset) =
          Except.ok l ∧
        l.length = q.length ∧
        (∃ lastI, l.getLast? = some lastI ∧ lastI.idx_result = out ∧
          lastI.remaining = [out]) ∧
        ∀ ins ∈ l.dropLast, List.Sorted (sizeRel d) ins.idx_result := by
  have hslen : (terms.map List.toFinset).length = terms.length := List.length_map _ _
  intro q hq
  have hgood : goodPath out.toFinset (terms.map List.toFinset) q ∧ q ≠ [] := by
    rcases List.mem_cons.mp hq with rfl | hq2
    · rcases path_optimal_cases (terms.map List.toFinset) out.toFinset d memory
        (by omega) with h | ⟨hval, hlen⟩
      · rw [h]
        refine ⟨goodPath_fallback (by omega), by simp⟩
      · refine ⟨validSteps_goodPath _ _ hval (by omega), ?_⟩
        intro hc
        rw [hc] at hlen
        simp only [List.length_nil] at hlen
        omega
    · rcases List.mem_cons.mp hq2 with rfl | hq3
      · have hg := oppGo_goodPath out.toFinset d memory
          ((terms.map List.toFinset).length - 1) (terms.map List.toFinset) (by omega)
        rw [show oppGo out.toFinset d memory ((terms.map List.toFinset).length - 1)
            (terms.map List.toFinset) =
          path_opportunistic (terms.map List.toFinset) out.toFinset d memory
          from rfl] at hg
        refine ⟨hg, ?_⟩
        intro hc
        rw [hc, goodPath] at hg
        omega
      · simp at hq3
  obtain ⟨hgp, hne⟩ := hgood
  constructor
  · exact goodPath_replay q _ hgp hsub (List.length_pos.mpr hne)
  · exact matGo_strategy out out.toFinset d q terms (terms.map List.toFinset) hgp
      hslen.symm hne

/-- Witness for C5 at a concrete two-operand instance. -/
theorem strategies_reach_output_witness :
    2 ≤ ([[0, 1], [1, 2]] : List (List ℕ)).length ∧
    ([0, 2] : List ℕ).toFinset ⊆
      unionF (([[0, 1], [1, 2]] : List (List ℕ)).map List.toFinset) ∧
    ∀ q ∈ [path_optimal (([[0, 1], [1, 2]] : List (List ℕ)).map List.toFinset)
             ([0, 2] : List ℕ).toFinset (fun _ => 2) 100,
           path_opportunistic (([[0, 1], [1, 2]] : List (List ℕ)).map List.toFinset)
             ([0, 2] : List ℕ).toFinset (fun _ => 2) 100],
      replayRem ([0, 2] : List ℕ).toFinset
          (([[0, 1], [1, 2]] : List (List ℕ)).map List.toFinset) q =
        [([0, 2] : List ℕ).toFinset] ∧
      ∃ l, matGo [0, 2] ([0, 2] : List ℕ).toFinset (fun _ => 2) (q.map Sum.inr)
          [[0, 1], [1, 2]] (([[0, 1], [1, 2]] : List (List ℕ)).map List.toFinset) =
          Except.ok l ∧
        l.length = q.length ∧
        (∃ lastI, l.getLast? = some lastI ∧ lastI.idx_result = [0, 2] ∧
          lastI.remaining = [[0, 2]]) ∧
        ∀ ins ∈ l.dropLast, List.Sorted (sizeRel (fun _ => 2)) ins.idx_result :=
  ⟨by decide, by decide,
    strategies_reach_output [[0, 1], [1, 2]] [0, 2] (fun _ => 2) 100
      (by decide) (by decide)⟩

lemma le_foldl_max_init : ∀ (xs : List ℕ) (x : ℕ), x ≤ xs.foldl max x := by
  intro xs
  induction xs with
  | nil => intro x; exact le_refl x
  | cons z zs ih => intro x; exact le_trans (le_max_left x z) (ih (max x z))

lemma le_foldl_max : ∀ (xs : List ℕ) (x y : ℕ), y = x ∨ y ∈ xs → y ≤ xs.foldl max x := by
  intro xs
  induction xs with
  | nil =>
    rintro x y (rfl | h)
    · exact le_refl y
    · cases h
  | cons z zs ih =>
    rintro x y (rfl | h)
    · exact le_trans (le_max_left y z) (le_foldl_max_init zs _)
    · rcases List.mem_cons.mp h with rfl | h
      · exact le_trans (le_max_right x y) (le_foldl_max_init zs _)
      · exact ih (max x z) y (Or.inr h)

lemma mem_le_out_size {terms : List (List ℕ)} {out : List ℕ} {d : ℕ → ℕ}
    {t : List ℕ} (ht : t ∈ terms ++ [out]) :
    compute_size_by_dict t d ≤ out_size terms out d := by
  rw [out_size]
  rcases hmap : (terms ++ [out]).map (fun t => compute_size_by_dict t d) with _ | ⟨x, xs⟩
  · have h0 := List.map_eq_nil_iff.mp hmap
    simp at h0
  · have hy : compute_size_by_dict t d ∈ x :: xs := by
      rw [← hmap]
      exact List.mem_map_of_mem _ ht
    exact le_foldl_max xs x _ (List.mem_cons.mp hy)

lemma sizeSet_toFinset_le (out : List ℕ) (d : ℕ → ℕ) (hd : ∀ x, 1 ≤ d x) :
    sizeSet out.toFinset d ≤ compute_size_by_dict out d := by
  induction out with
  | nil => simp [sizeSet, compute_size_by_dict]
  | cons a l ih =>
    rw [List.toFinset_cons, compute_size_by_dict, List.map_cons, List.prod_cons]
    by_cases h : a ∈ l.toFinset
    · rw [Finset.insert_eq_self.mpr h]
      calc sizeSet l.toFinset d ≤ compute_size_by_dict l d := ih
        _ = (l.map d).prod := rfl
        _ ≤ d a * (l.map d).prod := Nat.le_mul_of_pos_left _ (hd a)
    · rw [sizeSet, Finset.prod_insert h]
      exact Nat.mul_le_mul_left (d a) ih

lemma fc_range_new_result_subset (rem : List (Finset ℕ)) (oset : Finset ℕ) :
    (find_contraction (List.range rem.length) rem oset).new_result ⊆ oset := by
  rw [fc_new_result, nonSel_all_selected (fun k hk => List.mem_range.mpr hk)]
  rw [show unionF ([] : List (Finset ℕ)) = ∅ from rfl, Finset.union_empty]
  exact Finset.inter_subset_left

lemma stepsFeasible_bounded {oset : Finset ℕ} {d : ℕ → ℕ} {memory B : ℕ}
    (hd : ∀ x, 1 ≤ d x) (hoset : sizeSet oset d ≤ B) (hmem : memory ≤ B) :
    ∀ (p : List (List ℕ)) (rem : List (Finset ℕ)),
    stepsFeasible oset d memory rem p → ∀ i (hi : i < p.length),
      sizeSet (find_contraction p[i] (replayRem oset rem (p.take i))
        oset).new_result d ≤ B := by
  intro p rem hsf i hi
  rcases stepsFeasible_index p rem hsf i hi with h | h
  · omega
  · rw [h]
    have hs := fc_range_new_result_subset (replayRem oset rem (p.take i)) oset
    have h1 : sizeSet (find_contraction
        (List.range (replayRem oset rem (p.take i)).length)
        (replayRem oset rem (p.take i)) oset).new_result d ≤ sizeSet oset d :=
      Finset.prod_le_prod_of_subset_of_one_le' hs (fun x _ _ => hd x)
    omega

/-- C10: for three or more operands the opportunistic strategy is invoked
with the memory argument capped at `out_size` (the largest element count
among the inputs and the output), the optimal strategy is invoked with the
memory argument unchanged, and consequently (for positive sizes) every
intermediate surviving set produced along the opportunistic path has
estimated size at most `out_size`, even when the caller supplies a larger
memory limit. -/
theorem opportunistic_memory_cap (terms : List (List ℕ)) (out : List ℕ)
    (d : ℕ → ℕ) (memory : ℕ)
    (h3 : 3 ≤ terms.length) (hd : ∀ x, 1 ≤ d x) :
    computePath (PathArg.name ("opportunistic")) terms out d memory =
      Except.ok ((path_opportunistic (terms.map List.toFinset) out.toFinset d
        (min memory (out_size terms out d))).map Sum.inr) ∧
    computePath (PathArg.name ("optimal")) terms out d memory =
      Except.ok ((path_optimal (terms.map List.toFinset) out.toFinset d memory).map
        Sum.inr) ∧
    (∀ i (hi : i < (path_opportunistic (terms.map List.toFinset) out.toFinset d
        (min memory (out_size terms out d))).length),
      sizeSet (find_contraction
        ((path_opportunistic (terms.map List.toFinset) out.toFinset d
          (min memory (out_size terms out d)))[i])
        (replayRem out.toFinset (terms.map List.toFinset)
          ((path_opportunistic (terms.map List.toFinset) out.toFinset d
            (min memory (out_size terms out d))).take i))
        out.toFinset).new_result d ≤ out_size terms out d) := by
  have h1 : ¬(terms.length = 1) := by omega
  have h2 : ¬(terms.length = 2) := by omega
  refine ⟨?_, ?_, ?_⟩
  · rw [computePath]
    simp only [if_neg h1, if_neg h2]
    simp
  · rw [computePath]
    simp only [if_neg h1, if_neg h2]
    simp
  · have hB : sizeSet out.toFinset d ≤ out_size terms out d :=
      le_trans (sizeSet_toFinset_le out d hd)
        (mem_le_out_size (List.mem_append_right _ (List.mem_singleton.mpr rfl)))
    exact stepsFeasible_bounded hd hB (Nat.min_le_right _ _) _ _
      (oppGo_stepsFeasible _ _)

/-- Witness for C10 at a concrete three-operand call with an oversized
caller memory limit. -/
theorem opportunistic_memory_cap_witness :
    3 ≤ ([[0, 1], [1, 2], [2, 3]] : List (List ℕ)).length ∧
    (∀ x, 1 ≤ (fun _ : ℕ => 2) x) ∧
    (computePath (PathArg.name ("opportunistic")) [[0, 1], [1, 2], [2, 3]] [0, 3]
        (fun _ => 2) 1000000 =
      Except.ok ((path_opportunistic
        (([[0, 1], [1, 2], [2, 3]] : List (List ℕ)).map List.toFinset)
        ([0, 3] : List ℕ).toFinset (fun _ => 2)
        (min 1000000 (out_size [[0, 1], [1, 2], [2, 3]] [0, 3] (fun _ => 2)))).map
          Sum.inr) ∧
    computePath (PathArg.name ("optimal")) [[0, 1], [1, 2], [2, 3]] [0, 3]
        (fun _ => 2) 1000000 =
      Except.ok ((path_optimal
        (([[0, 1], [1, 2], [2, 3]] : List (List ℕ)).map List.toFinset)
        ([0, 3] : List ℕ).toFinset (fun _ => 2) 1000000).map Sum.inr) ∧
    (∀ i (hi : i < (path_opportunistic
        (([[0, 1], [1, 2], [2, 3]] : List (List ℕ)).map List.toFinset)
        ([0, 3] : List ℕ).toFinset (fun _ => 2)
        (min 1000000 (out_size [[0, 1], [1, 2], [2, 3]] [0, 3] (fun _ => 2)))).length),
      sizeSet (find_contraction
        ((path_opportunistic
          (([[0, 1], [1, 2], [2, 3]] : List (List ℕ)).map List.toFinset)
          ([0, 3] : List ℕ).toFinset (fun _ => 2)
          (min 1000000 (out_size [[0, 1], [1, 2], [2, 3]] [0, 3] (fun _ => 2))))[i])
        (replayRem ([0, 3] : List ℕ).toFinset
          (([[0, 1], [1, 2], [2, 3]] : List (List ℕ)).map List.toFinset)
          ((path_opportunistic
            (([[0, 1], [1, 2], [2, 3]] : List (List ℕ)).map List.toFinset)
            ([0, 3] : List ℕ).toFinset (fun _ => 2)
            (min 1000000
              (out_size [[0, 1], [1, 2], [2, 3]] [0, 3] (fun _ => 2)))).take i))
        ([0, 3] : List ℕ).toFinset).new_result (fun _ => 2) ≤
      out_size [[0, 1], [1, 2], [2, 3]] [0, 3] (fun _ => 2))) :=
  ⟨by decide, fun _ => one_le_two,
    opportunistic_memory_cap [[0, 1], [1, 2], [2, 3]] [0, 3] (fun _ => 2) 1000000
      (by decide) (fun _ => one_le_two)⟩

end OptEinsum
